import Mathlib

/-!
Verification of the Jira release-dashboard repository.

This file shallowly embeds the core of the repository:
  * the ADF (rich-text document) flattener `adfToPlainText`
    (src/app/api/issue/[key]/route.ts),
  * the attachment-placeholder resolver `enrichPlaceholders`
    (same file),
  * the release-name parser `parseLtFixVersion` and the grouping /
    sorting pipeline of the issues endpoint (src/app/api/issues/route.ts),
  * the cursor-paginated aggregation loop of that endpoint, and
  * the issue-detail assembly.

Modelling conventions:
  * JS strings are Lean `String` / `List Char`; JS `number` values are
    modelled as exact decimals `DecNum` (mantissa times a power of ten),
    since every numeric literal the code manipulates is decimal.
  * Absent / null JS fields are `Option`; the JS `x ?? d` operator is
    `Option.getD`; JS truthiness of a string is "not the empty string".
  * `Array.prototype.sort(cmp)` is modelled as `List.insertionSort` on
    the relation "cmp nonpositive"; `String.prototype.localeCompare` is
    modelled as lexicographic comparison of the character lists.
  * Loops are fuel-based structural recursions so that every definition
    evaluates inside the kernel.
-/

/-! ## Basic JS string operations -/

/-- Whitespace characters recognised by the embedding of the JS regex
class backslash-s and of `String.prototype.trim`. -/
def jsWs (c : Char) : Bool :=
  c = ' ' || c = '\t' || c = '\n' || c = '\r' ||
  c = Char.ofNat 11 || c = Char.ofNat 12

/-- Model of `String.prototype.trim` on character lists. -/
def jsTrimL (l : List Char) : List Char :=
  ((l.dropWhile jsWs).reverse.dropWhile jsWs).reverse

/-- Model of `String.prototype.trim`. -/
def jsTrim (s : String) : String :=
  String.mk (jsTrimL s.data)

/-- Model of `String.prototype.toLowerCase` on one character: ASCII
lowering plus the uppercase Lithuanian letters that can occur in the
month vocabulary of this repository. -/
def jsToLowerC (c : Char) : Char :=
  if c = 'Ž' then 'ž'
  else if c = 'Ū' then 'ū'
  else if c = 'Ė' then 'ė'
  else if c = 'Ą' then 'ą'
  else if c = 'Č' then 'č'
  else if c = 'Ę' then 'ę'
  else if c = 'Į' then 'į'
  else if c = 'Š' then 'š'
  else if c = 'Ų' then 'ų'
  else if 'A' ≤ c ∧ c ≤ 'Z' then Char.ofNat (c.toNat + 32)
  else c

/-- Model of `String.prototype.toLowerCase` on character lists. -/
def jsToLowerL (l : List Char) : List Char := l.map jsToLowerC

/-- Model of `String.prototype.toLowerCase`. -/
def jsToLower (s : String) : String := String.mk (jsToLowerL s.data)

/-! ## The ADF document model

The flattener in src/app/api/issue/[key]/route.ts dispatches on
`node.type`; following the design note of the spec we embed the closed
set of shapes it distinguishes as a tagged sum.  A `null`/absent node is
the constructor `nullNode`; a bare string is `str`; an array of nodes is
`arr`.  The constructor `card` stands for the three node types
`inlineCard`, `blockCard` and `embedCard` (the code treats them
identically); `mediaWrap` stands for `mediaSingle` and `mediaGroup`
(idem); `container` is any other node type, carrying its type tag so
that membership in the block-type set can be tested. -/

/-- A mark attached to an ADF text node.  The field `href` models
`mark.attrs?.href` (absent attribute or absent href gives `none`). -/
structure AdfMark where
  type : String
  href : Option String
  deriving DecidableEq, Repr

/-- The recursive ADF document node, as dispatched on by the code. -/
inductive Adf where
  | nullNode : Adf
  | str : String → Adf
  | arr : List Adf → Adf
  | text : Option String → Option (List AdfMark) → Adf
  | hardBreak : Adf
  | card : Option String → Adf
  | media : Option String → Adf
  | mediaWrap : Option Adf → Adf
  | container : String → Option Adf → Adf
  deriving Repr

/-- The block-level node types after which the flattener appends a
newline (the `blockTypes` set in the code). -/
def blockTypes : List String :=
  ["doc", "paragraph", "heading", "blockquote", "listItem", "bulletList",
   "orderedList", "codeBlock", "panel", "rule", "table", "tableRow",
   "tableCell"]

mutual

/-- Embedding of `adfToPlainText` from src/app/api/issue/[key]/route.ts. -/
def adfToPlainText : Adf → String
  | .nullNode => ""
  | .str s => s
  | .arr ns => String.join (adfList ns)
  | .text t marks =>
      let text := t.getD ""
      let ms := marks.getD []
      let linkMark := ms.find? (fun m => m.type = "link")
      let href := linkMark.bind (fun m => m.href)
      match href with
      | some h =>
          if h ≠ "" then
            if text ≠ "" ∧ jsTrim text ≠ "" ∧ jsTrim text ≠ h then
              text ++ " (" ++ h ++ ")"
            else h
          else text
      | none => text
  | .hardBreak => "\n"
  | .card url =>
      match url with
      | some u => if u ≠ "" then "[Link: " ++ u ++ "]\n" else "[Link]\n"
      | none => "[Link]\n"
  | .media idAttr =>
      let i := idAttr.getD ""
      if i ≠ "" then "[ATTACHMENT_ID:" ++ i ++ "]" else "[ATTACHMENT]"
  | .mediaWrap c =>
      let content := match c with
        | some n => adfToPlainText n
        | none => ""
      if content ≠ "" then content ++ "\n" else "[ATTACHMENT]\n"
  | .container ty c =>
      let content := match c with
        | some n => adfToPlainText n
        | none => ""
      if ty ∈ blockTypes then content ++ "\n" else content

/-- Flattening of a list of ADF nodes (the `Array.isArray` branch of the
code maps the flattener over the array and joins with no separator). -/
def adfList : List Adf → List String
  | [] => []
  | n :: ns => adfToPlainText n :: adfList ns

end

/-- Spec scenario 1: a paragraph with the text Hello flattens to Hello
followed by a newline. -/
example :
    adfToPlainText
      (.container "paragraph" (some (.arr [.text (some "Hello") none]))) =
    "Hello\n" := by decide

/-- Spec scenario 2: a text node whose link href differs from its text
flattens to the text followed by the parenthesised href. -/
example :
    adfToPlainText
      (.text (some "Click here")
        (some [{ type := "link", href := some "http://x/y" }])) =
    "Click here (http://x/y)" := by decide

/-- A text node whose text equals its link href flattens to the href
alone. -/
example :
    adfToPlainText
      (.text (some "http://x/y")
        (some [{ type := "link", href := some "http://x/y" }])) =
    "http://x/y" := by decide

/-! ## The attachment resolver

`enrichPlaceholders` in src/app/api/issue/[key]/route.ts performs two
global regex substitutions over the flattened text: first every token
of the shape open-bracket ATTACHMENT_ID colon id close-bracket (id one
or more characters other than a close-bracket), then every literal
bare token open-bracket ATTACHMENT close-bracket.  We embed the two
substitutions as left-to-right scans over character lists, which is
exactly how a global regex replace visits a string: at each position
the engine either matches (consuming the match and emitting the
replacement) or moves one character forward. -/

/-- Raw Jira attachment object, with every field optional as in JSON. -/
structure JAttachment where
  id : Option String
  filename : Option String
  mimeType : Option String
  size : Option Int
  content : Option String
  deriving DecidableEq, Repr

/-- Boolean test that `p` is an initial segment of `s`. -/
def isPre : List Char → List Char → Bool
  | [], _ => true
  | _ :: _, [] => false
  | a :: as, b :: bs => a = b && isPre as bs

/-- The characters of the placeholder opener (the literal part of the
regex before the captured id). -/
def PREpat : List Char := "[ATTACHMENT_ID:".data

/-- The characters of the bare attachment token. -/
def BAREpat : List Char := "[ATTACHMENT]".data

/-- The characters of the generic substituted label. -/
def BARSUB : List Char := "[Attachment]".data

/-- Try to match the id-placeholder regex at the head of `l`; on success
return the captured id and the remainder after the match.  The captured
id is one or more characters none of which is a close-bracket. -/
def tokAt (l : List Char) : Option (List Char × List Char) :=
  if isPre PREpat l then
    let after := l.drop 15
    let id := after.takeWhile (fun c => c ≠ ']')
    match after.dropWhile (fun c => c ≠ ']') with
    | [] => none
    | _ :: r2 => if id = [] then none else some (id, r2)
  else none

/-- Embedding of `placeholderLabelForAttachment`: an image label when
the lower-cased mime type starts with image slash, a file label
otherwise; the filename falls back to the literal file. -/
def placeholderLabelForAttachment (a : JAttachment) : List Char :=
  let mime := jsToLowerL (a.mimeType.getD "").data
  let fname := (a.filename.getD "file").data
  if isPre "image/".data mime then "[Image: ".data ++ fname ++ "]".data
  else "[File: ".data ++ fname ++ "]".data

/-- The replacement emitted for a captured id: the readable label when
the id is in the attachment lookup, the generic label otherwise. -/
def substFor (att : List Char → Option JAttachment) (id : List Char) :
    List Char :=
  match att id with
  | none => BARSUB
  | some a => placeholderLabelForAttachment a

/-- First substitution pass (the id-placeholder regex), fuel-based so
the definition evaluates in the kernel; each step consumes at least one
character, so fuel equal to the length of the input suffices. -/
def replaceIdsF (att : List Char → Option JAttachment) :
    Nat → List Char → List Char
  | 0, l => l
  | _ + 1, [] => []
  | fuel + 1, c :: cs =>
      match tokAt (c :: cs) with
      | some (id, rest) => substFor att id ++ replaceIdsF att fuel rest
      | none => c :: replaceIdsF att fuel cs

/-- Second substitution pass: every bare token becomes the generic
label. -/
def replaceBareF : Nat → List Char → List Char
  | 0, l => l
  | _ + 1, [] => []
  | fuel + 1, c :: cs =>
      if isPre BAREpat (c :: cs) then
        BARSUB ++ replaceBareF fuel ((c :: cs).drop 12)
      else c :: replaceBareF fuel cs

/-- Embedding of `enrichPlaceholders`: the falsy-text guard followed by
the two global substitutions, on character lists. -/
def enrichL (att : List Char → Option JAttachment) (l : List Char) :
    List Char :=
  if l = [] then []
  else
    let u := replaceIdsF att l.length l
    replaceBareF u.length u

/-- Embedding of `enrichPlaceholders` on strings. -/
def enrichPlaceholders (att : List Char → Option JAttachment)
    (s : String) : String :=
  String.mk (enrichL att s.data)

/-- The statement that `p` occurs as a contiguous block somewhere in
`s`. -/
def occurs (p s : List Char) : Prop := ∃ a b, s = a ++ p ++ b

/-- The statement that `s` begins with `p`. -/
def leadsWith (p s : List Char) : Prop := ∃ t, s = p ++ t

/-- The statement that an id placeholder token sits at the head of `s`:
the opener, a nonempty id free of close-brackets, and the closing
bracket. -/
def TokStart (s : List Char) : Prop :=
  ∃ id b, s = PREpat ++ id ++ ']' :: b ∧ id ≠ [] ∧ ']' ∉ id

/-- The statement that an id placeholder token occurs somewhere in
`s`. -/
def hasTok (s : List Char) : Prop := ∃ u v, s = u ++ v ∧ TokStart v

/-- Spec scenario 3: a media placeholder for an image attachment
resolves to the bracketed image label with the filename. -/
example :
    enrichPlaceholders
      (fun i => if i = "10001".data then
          some { id := some "10001", filename := some "a.png",
                 mimeType := some "image/png", size := none,
                 content := none }
        else none)
      "[ATTACHMENT_ID:10001]" = "[Image: a.png]" := by decide

/-- An id with no matching attachment and a bare token both resolve to
the generic label. -/
example :
    enrichPlaceholders (fun _ => none) "x[ATTACHMENT_ID:9]y[ATTACHMENT]z" =
    "x[Attachment]y[Attachment]z" := by decide

/-! ## Exact decimal numbers

The issues route feeds release labels to the JS `Number` conversion.
Every value that conversion can produce from the strings this code
meets is an exact decimal, so we embed JS numbers as
mantissa-times-power-of-ten pairs; `none` models a conversion result
that is not a finite number (NaN or an infinity), which is exactly what
the `Number.isFinite` guard in the code rejects. -/

/-- An exact decimal: the value is `man * 10 ^ exp`. -/
structure DecNum where
  man : Int
  exp : Int
  deriving DecidableEq, Repr

/-- Comparison of exact decimals by cross-scaling to a common
exponent. -/
def DecNum.le (a b : DecNum) : Bool :=
  if a.exp ≤ b.exp then a.man ≤ b.man * 10 ^ (b.exp - a.exp).toNat
  else a.man * 10 ^ (a.exp - b.exp).toNat ≤ b.man

/-- Strict comparison of exact decimals. -/
def DecNum.lt (a b : DecNum) : Bool := !(DecNum.le b a)

/-- An integer as an exact decimal. -/
def DecNum.ofInt (n : Int) : DecNum := ⟨n, 0⟩

/-- Product of exact decimals. -/
def DecNum.mul (a b : DecNum) : DecNum := ⟨a.man * b.man, a.exp + b.exp⟩

/-- Sum of exact decimals, aligning to the smaller exponent. -/
def DecNum.add (a b : DecNum) : DecNum :=
  if a.exp ≤ b.exp then ⟨a.man + b.man * 10 ^ (b.exp - a.exp).toNat, a.exp⟩
  else ⟨a.man * 10 ^ (a.exp - b.exp).toNat + b.man, b.exp⟩

/-- The rational value of an exact decimal (proof-side only). -/
def DecNum.toRat (d : DecNum) : ℚ := d.man * 10 ^ d.exp

/-! ## The JS Number conversion on strings -/

/-- Decimal digit test. -/
def isDigitC (c : Char) : Bool := '0' ≤ c && c ≤ '9'

/-- Hexadecimal digit test. -/
def isHexC (c : Char) : Bool :=
  isDigitC c || ('a' ≤ c && c ≤ 'f') || ('A' ≤ c && c ≤ 'F')

/-- Octal digit test. -/
def isOctC (c : Char) : Bool := '0' ≤ c && c ≤ '7'

/-- Binary digit test. -/
def isBinC (c : Char) : Bool := c = '0' || c = '1'

/-- Value of a digit character in any of the bases above. -/
def digitValC (c : Char) : Nat :=
  if isDigitC c then c.toNat - '0'.toNat
  else if 'a' ≤ c && c ≤ 'f' then c.toNat - 'a'.toNat + 10
  else if 'A' ≤ c && c ≤ 'F' then c.toNat - 'A'.toNat + 10
  else 0

/-- Accumulate a digit list into a natural number in the given base. -/
def digitsToNatB (base : Nat) : List Char → Nat → Nat
  | [], acc => acc
  | c :: cs, acc => digitsToNatB base cs (acc * base + digitValC c)

/-- Parse the exponent part of a decimal literal (empty, or e / E with
an optionally signed digit string), applied to a mantissa already
parsed; the whole remainder must be consumed. -/
def parseExpPart (man : Int) (exp : Int) : List Char → Option DecNum
  | [] => some ⟨man, exp⟩
  | e :: r =>
      if e = 'e' ∨ e = 'E' then
        let sr : Int × List Char :=
          match r with
          | '+' :: t => (1, t)
          | '-' :: t => (-1, t)
          | t => (1, t)
        let ds := sr.2.takeWhile isDigitC
        if ds = [] ∨ sr.2.drop ds.length ≠ [] then none
        else some ⟨man, exp + sr.1 * (digitsToNatB 10 ds 0 : Nat)⟩
      else none

/-- Parse an unsigned decimal literal: digits with an optional fraction
(or a fraction alone) and an optional exponent. -/
def parseDecCore (l : List Char) : Option DecNum :=
  let ip := l.takeWhile isDigitC
  match l.drop ip.length with
  | '.' :: r2 =>
      let fp := r2.takeWhile isDigitC
      if ip = [] ∧ fp = [] then none
      else
        parseExpPart (digitsToNatB 10 (ip ++ fp) 0 : Nat)
          (-(fp.length : Int)) (r2.drop fp.length)
  | r1 =>
      if ip = [] then none
      else parseExpPart (digitsToNatB 10 ip 0 : Nat) 0 r1

/-- Parse the body of a signed position: a decimal literal, where the
literal Infinity converts in JS to a non-finite value and is therefore
mapped to `none` like NaN. -/
def parseDecOrInf (l : List Char) : Option DecNum :=
  if l = "Infinity".data then none else parseDecCore l

/-- Parse a radix-prefixed integer literal body (after 0x, 0o or 0b):
one or more digits of the base, consuming everything. -/
def parseRadix (isD : Char → Bool) (base : Nat) (r : List Char) :
    Option DecNum :=
  if r ≠ [] ∧ r.all isD then some ⟨(digitsToNatB base r 0 : Nat), 0⟩
  else none

/-- Embedding of the JS `Number` conversion on a character list: trim,
empty gives zero, a sign admits only a decimal body, and the unsigned
forms admit the three radix prefixes. -/
def jsNumberL (l : List Char) : Option DecNum :=
  let t := jsTrimL l
  match t with
  | [] => some ⟨0, 0⟩
  | '+' :: r => parseDecOrInf r
  | '-' :: r => (parseDecOrInf r).map (fun d => ⟨-d.man, d.exp⟩)
  | '0' :: x :: r =>
      if x = 'x' ∨ x = 'X' then parseRadix isHexC 16 r
      else if x = 'o' ∨ x = 'O' then parseRadix isOctC 8 r
      else if x = 'b' ∨ x = 'B' then parseRadix isBinC 2 r
      else parseDecOrInf t
  | _ => parseDecOrInf t

/-! ## The release-name parser -/

/-- The fixed Lithuanian month table `LT_MONTH_TO_NUM` of
src/app/api/issues/route.ts. -/
def LT_MONTH_TO_NUM : List (String × Nat) :=
  [("sausis", 1), ("vasaris", 2), ("kovas", 3), ("balandis", 4),
   ("gegužė", 5), ("geguze", 5), ("birželis", 6), ("birzelis", 6),
   ("liepa", 7), ("rugpjūtis", 8), ("rugpjutis", 8), ("rugsėjis", 9),
   ("rugsejis", 9), ("spalis", 10), ("lapkritis", 11), ("gruodis", 12)]

/-- A value produced by the JS bracket lookup `LT_MONTH_TO_NUM[k]`: an
own month number of the table, or — the table being a plain object
literal, which inherits from `Object.prototype` — one of the twelve
inherited properties (constructor, hasOwnProperty, isPrototypeOf,
propertyIsEnumerable, toLocaleString, toString, valueOf,
__defineGetter__, __defineSetter__, __lookupGetter__, __lookupSetter__,
__proto__).  Each inherited member is a function or object, hence
truthy and not a number; one constructor suffices for all twelve since
only truthiness and numeric conversion of the value are ever used. -/
inductive MonthVal where
  | num : Nat → MonthVal
  | protoVal : MonthVal
  deriving DecidableEq, Repr

/-- The string keys found on `Object.prototype` by a bracket lookup. -/
def objectProtoKeys : List String :=
  ["constructor", "hasOwnProperty", "isPrototypeOf",
   "propertyIsEnumerable", "toLocaleString", "toString", "valueOf",
   "__defineGetter__", "__defineSetter__", "__lookupGetter__",
   "__lookupSetter__", "__proto__"]

/-- Embedding of the bracket lookup `LT_MONTH_TO_NUM[k]` by character
list: an own key of the table yields its month number, any other key
present on `Object.prototype` yields the inherited (truthy, non-number)
member, and all remaining keys yield undefined. -/
def monthLookupL (s : List Char) : Option MonthVal :=
  match (LT_MONTH_TO_NUM.find? (fun p => p.1.data = s)).map (fun p => p.2)
  with
  | some n => some (.num n)
  | none =>
      if objectProtoKeys.any (fun k => k.data = s) then some .protoVal
      else none

/-- Helper splitting a character list into maximal whitespace-free
words; `cur` holds the characters of the word in progress, reversed. -/
def wordsAux (cur : List Char) : List Char → List (List Char)
  | [] => if cur = [] then [] else [cur.reverse]
  | c :: cs =>
      if jsWs c then
        if cur = [] then wordsAux [] cs else cur.reverse :: wordsAux [] cs
      else wordsAux (c :: cur) cs

/-- Embedding of the JS split on the whitespace-run regex, applied (as
in the code) to an already trimmed string: an empty string yields the
singleton list holding the empty string, anything else its whitespace
separated words. -/
def jsSplitWs (t : List Char) : List (List Char) :=
  if t = [] then [[]] else wordsAux [] t

/-- A parsed release: the year as the number produced by the JS
conversion, and the value the bracket lookup produced for the month. -/
structure YM where
  year : DecNum
  month : MonthVal
  deriving DecidableEq, Repr

/-- The month of a label: the joined lower-cased tokens after the year
looked up in the table, with the JS nullish fallback to the lower-cased
second token alone. -/
def monthOf (tail : List (List Char)) (p1 : List Char) : Option MonthVal :=
  match monthLookupL (jsToLowerL (List.intercalate [' '] tail)) with
  | some v => some v
  | none => monthLookupL (jsToLowerL p1)

/-- Embedding of `parseLtFixVersion`: split the trimmed label on
whitespace, require at least two parts, convert the first with the JS
Number conversion and require a finite value between 2000 and 2100,
then look up the month via `monthOf`.  The code's truthiness guard
`if (!month)` rejects exactly the undefined lookup: every defined value
is truthy (own months are 1..12 and the inherited members are functions
or objects). -/
def parseLtFixVersion (name : String) : Option YM :=
  match jsSplitWs (jsTrimL name.data) with
  | p0 :: p1 :: rest =>
      match jsNumberL p0 with
      | none => none
      | some y =>
          if DecNum.lt y (DecNum.ofInt 2000) ∨ DecNum.lt (DecNum.ofInt 2100) y
          then none
          else
            match monthOf (p1 :: rest) p1 with
            | none => none
            | some mo => some ⟨y, mo⟩
  | _ => none

/-- Embedding of `monthKey`: year times one hundred plus month.  With a
numeric month the result is the number `year*100 + month`.  With an
inherited `Object.prototype` member as month, the JS `+` concatenates
the number with the member's primitive (string) form, so the key is a
non-numeric string; it is modelled as `none`, faithful for the key's
only consumer, the sort comparator, which subtracts two keys — a
subtraction with such an operand is NaN. -/
def monthKey (p : YM) : Option DecNum :=
  match p.month with
  | .num m => some ((p.year.mul (DecNum.ofInt 100)).add (DecNum.ofInt m))
  | .protoVal => none

/-- Spec scenario 4, first half: the label 2024 Sausis parses to year
2024 month 1 with sort key 202401. -/
example :
    parseLtFixVersion "2024 Sausis" = some ⟨⟨2024, 0⟩, .num 1⟩ ∧
    monthKey ⟨⟨2024, 0⟩, .num 1⟩ = some ⟨202401, 0⟩ := by decide

/-- Spec scenario 4, second half: the label 2024 vasaris has sort key
202402. -/
example :
    parseLtFixVersion "2024 vasaris" = some ⟨⟨2024, 0⟩, .num 2⟩ ∧
    monthKey ⟨⟨2024, 0⟩, .num 2⟩ = some ⟨202402, 0⟩ := by decide

/-- A label with fewer than two tokens or with an unknown month fails to
parse. -/
example :
    parseLtFixVersion "2024" = none ∧
    parseLtFixVersion "2024 crocus" = none ∧
    parseLtFixVersion "1999 sausis" = none := by decide

/-- The multi-word month fallback: the joined remainder fails the table
but the second token alone succeeds. -/
example :
    parseLtFixVersion " 2024  SAUSIS   x " = some ⟨⟨2024, 0⟩, .num 1⟩ := by
  decide

/-- A month token that is an inherited `Object.prototype` property name
survives the truthiness guard: the label parses, with the inherited
member as its month.  After lower-casing only the two all-lower-case
inherited names are reachable here. -/
example :
    parseLtFixVersion "2024 constructor" = some ⟨⟨2024, 0⟩, .protoVal⟩ ∧
    parseLtFixVersion "2024 __proto__" = some ⟨⟨2024, 0⟩, .protoVal⟩ ∧
    parseLtFixVersion "2024 toString" = none := by decide

/-! ## Grouping engine -/

/-- A raw fix-version entry of a search result record. -/
structure FixVersion where
  name : Option String
  released : Option Bool
  deriving DecidableEq, Repr

/-- The projected fields of a raw search record. -/
structure RawFields where
  summary : Option String
  fixVersions : Option (List FixVersion)
  deriving DecidableEq, Repr

/-- A raw search record. -/
structure RawIssue where
  key : String
  fields : Option RawFields
  deriving DecidableEq, Repr

/-- The trimmed projection pushed into groups. -/
structure TrimmedIssue where
  key : String
  summary : String
  url : String
  deriving DecidableEq, Repr

/-- A release group of the issues response. -/
structure FvGroup where
  fixVersion : String
  released : Option Bool
  issues : List TrimmedIssue
  deriving DecidableEq, Repr

/-- The trimmed record for a raw issue (key, summary with empty
fallback, browse url). -/
def trimmedOf (baseUrl : String) (r : RawIssue) : TrimmedIssue :=
  ⟨r.key, (r.fields.bind (fun f => f.summary)).getD "",
   baseUrl ++ "/browse/" ++ r.key⟩

/-- Membership insertion into the insertion-ordered group list: a
missing group is created at the end (its released flag taken from the
creating entry, so the first seen value wins), and the record is pushed
at the end of the issue list of the group. -/
def addMembership : List FvGroup → String → Option Bool → TrimmedIssue →
    List FvGroup
  | [], name, rel, iss => [⟨name, rel, [iss]⟩]
  | g :: gs, name, rel, iss =>
      if g.fixVersion = name then
        ⟨g.fixVersion, g.released, g.issues ++ [iss]⟩ :: gs
      else g :: addMembership gs name rel iss

/-- The inner loop over the fix versions of one record: falsy names are
skipped, a per-record seen list deduplicates names, and each new name
produces exactly one membership insertion. -/
def processFVs (iss : TrimmedIssue) :
    List String → List FvGroup → List FixVersion → List FvGroup
  | _, gm, [] => gm
  | seen, gm, fv :: rest =>
      match fv.name with
      | none => processFVs iss seen gm rest
      | some n =>
          if n = "" then processFVs iss seen gm rest
          else if n ∈ seen then processFVs iss seen gm rest
          else processFVs iss (n :: seen)
            (addMembership gm n fv.released iss) rest

/-- Processing of one raw record into the group list. -/
def processIssue (baseUrl : String) (gm : List FvGroup) (r : RawIssue) :
    List FvGroup :=
  processFVs (trimmedOf baseUrl r) [] gm
    ((r.fields.bind (fun f => f.fixVersions)).getD [])

/-- Grouping of all aggregated records, in order. -/
def buildGroups (baseUrl : String) (rs : List RawIssue) : List FvGroup :=
  rs.foldl (processIssue baseUrl) []

/-! ## FvGroup sorting -/

/-- Negation of an exact decimal. -/
def DecNum.neg (d : DecNum) : DecNum := ⟨-d.man, d.exp⟩

/-- Difference of exact decimals. -/
def DecNum.sub (a b : DecNum) : DecNum := a.add b.neg

/-- A sample three-way comparison of character lists: plain code-point
order.  `localeCompare` itself is host collation (ICU data and current
locale), which the source does not determine, so the development is
parameterised over the comparison and this function serves only to
instantiate that parameter in concrete witnesses. -/
def cpCmp (a b : List Char) : Int :=
  if a = b then 0 else if a < b then -1 else 1

/-- The sort comparator of the issues route, parameterised by the host
locale comparison `lc` standing for `String.prototype.localeCompare`:
unparseable names compare by `lc` among themselves and sort after
parseable ones, and parseable names compare by the difference of month
keys.  The difference is `none` — NaN — whenever a key is the
non-numeric value produced by an inherited month. -/
def cmpGroups (lc : List Char → List Char → Int) (a b : FvGroup) :
    Option DecNum :=
  match parseLtFixVersion a.fixVersion, parseLtFixVersion b.fixVersion with
  | none, none =>
      some (DecNum.ofInt (lc a.fixVersion.data b.fixVersion.data))
  | none, some _ => some (DecNum.ofInt 1)
  | some _, none => some (DecNum.ofInt (-1))
  | some pa, some pb =>
      match monthKey pb, monthKey pa with
      | some kb, some ka => some (kb.sub ka)
      | _, _ => none

/-- The sort relation induced by the comparator under the ES
`SortCompare` rule, which maps a NaN comparator value to plus zero: the
relation holds when the comparator value is NaN or nonpositive. -/
def groupLeB (lc : List Char → List Char → Int) (a b : FvGroup) : Bool :=
  match cmpGroups lc a b with
  | none => true
  | some d => DecNum.le d (DecNum.ofInt 0)

/-- The sort relation as a proposition. -/
def groupLe (lc : List Char → List Char → Int) (a b : FvGroup) : Prop :=
  groupLeB lc a b = true

instance (lc : List Char → List Char → Int) :
    DecidableRel (groupLe lc) := fun a b =>
  inferInstanceAs (Decidable (groupLeB lc a b = true))

/-- The sorted group list of the issues response, modelled by a stable
insertion sort: `Array.prototype.sort` is stable, and when the
comparator is consistent any compliant sort yields a list pairwise
ordered by the sort relation. -/
def sortGroups (lc : List Char → List Char → Int) (gs : List FvGroup) :
    List FvGroup :=
  List.insertionSort (groupLe lc) gs

/-! ## Paged aggregation -/

/-- One page of the search endpoint. -/
structure PageData where
  issues : List RawIssue
  nextPageToken : Option String
  isLast : Option Bool
  deriving DecidableEq, Repr

/-- One upstream response: a page, or a non-success HTTP result with
its status and raw body. -/
inductive FetchResult where
  | ok : PageData → FetchResult
  | err : Nat → String → FetchResult
  deriving DecidableEq, Repr

/-- Outcome of the aggregation loop. -/
inductive AggOutcome where
  | ok : List RawIssue → AggOutcome
  | httpError : Nat → String → AggOutcome
  deriving DecidableEq, Repr

/-- JS falsiness of the continuation token: absent or empty. -/
def tokenFalsy : Option String → Bool
  | none => true
  | some s => s = ""

/-- The aggregation loop of the issues route.  `resps` gives the
upstream response to the i-th request (the loop is strictly sequential,
so indexing requests by ordinal is faithful); the fuel is the remaining
iteration budget of the safety counter, 30 at entry; the second
component of the result counts the requests issued.  Each iteration
appends the page records to the accumulator and stops when the page
marks itself last (absent defaults to true) or the continuation token
is falsy. -/
def aggGo (resps : Nat → FetchResult) :
    Nat → Nat → List RawIssue → AggOutcome × Nat
  | 0, _, acc => (.ok acc, 0)
  | fuel + 1, i, acc =>
      match resps i with
      | .err s b => (.httpError s b, 1)
      | .ok p =>
          let acc2 := acc ++ p.issues
          if p.isLast.getD true || tokenFalsy p.nextPageToken then
            (.ok acc2, 1)
          else
            let r := aggGo resps fuel (i + 1) acc2
            (r.1, r.2 + 1)

/-- The full aggregation: fuel 30, starting at request 0 with an empty
accumulator. -/
def runAgg (resps : Nat → FetchResult) : AggOutcome × Nat :=
  aggGo resps 30 0 []

/-- A response of the issues endpoint: the grouped payload, or an error
envelope with its HTTP status, message, optional upstream status and
optional details. -/
inductive IssuesResponse where
  | ok : Nat → List FvGroup → IssuesResponse
  | error : Nat → String → Option Nat → Option String → IssuesResponse
  deriving DecidableEq, Repr

/-- The issues endpoint, given the host locale comparison, the
environment base url and the upstream behaviour: aggregate, group,
sort; an upstream failure maps to the 502 envelope carrying the
upstream status and body. -/
def GETissues (lc : List Char → List Char → Int) (baseUrl : String)
    (resps : Nat → FetchResult) : IssuesResponse :=
  match runAgg resps with
  | (.ok issues, _) =>
      .ok issues.length (sortGroups lc (buildGroups baseUrl issues))
  | (.httpError s b, _) => .error 502 "Jira request failed" (some s) (some b)

/-! ## Issue-detail assembly -/

/-- A named upstream object (status, priority, issue type). -/
structure JNamed where
  name : Option String
  deriving DecidableEq, Repr

/-- An upstream user object. -/
structure JUser where
  displayName : Option String
  deriving DecidableEq, Repr

/-- A raw comment; `author` is the display name of the author object
when both are present. -/
structure JComment where
  id : Option String
  author : Option String
  created : Option String
  body : Adf

/-- The fields of the detail fetch.  `comment` stands for the nested
comments array reached by `f.comment?.comments`, with absence at either
level collapsed to `none`. -/
structure DetailFields where
  summary : Option String
  description : Adf
  comment : Option (List JComment)
  attachment : Option (List JAttachment)
  fixVersions : Option (List FixVersion)
  issuetype : Option JNamed
  status : Option JNamed
  assignee : Option JUser
  priority : Option JNamed
  created : Option String

/-- The empty fields object used when `data.fields` is absent. -/
def emptyDetailFields : DetailFields :=
  ⟨none, .nullNode, none, none, none, none, none, none, none, none⟩

/-- The raw detail payload. -/
structure DetailData where
  key : String
  fields : Option DetailFields

/-- The id-to-attachment lookup built by the detail route: entries with
truthy ids, later entries overwriting earlier ones. -/
def attLookup (l : List JAttachment) (idq : List Char) :
    Option JAttachment :=
  l.reverse.find? (fun a =>
    match a.id with
    | some i => i ≠ "" && i.data = idq
    | none => false)

/-- A comment of the detail response. -/
structure CommentOut where
  id : Option String
  author : String
  created : Option String
  bodyText : String
  deriving DecidableEq, Repr

/-- An attachment of the detail response. -/
structure AttachmentOut where
  id : Option String
  filename : Option String
  mimeType : Option String
  size : Option Int
  contentUrl : Option String
  deriving DecidableEq, Repr

/-- The issue-detail response payload. -/
structure DetailOut where
  key : String
  url : String
  summary : String
  status : Option String
  assignee : Option String
  priority : Option String
  issueType : Option String
  created : Option String
  fixVersions : List (Option String)
  descriptionText : String
  comments : List CommentOut
  attachments : List AttachmentOut
  deriving DecidableEq, Repr

/-- Assembly of the detail payload: flatten and trim the description
and each comment body, resolve attachment placeholders against the
lookup, project the attachment list, and pass the optional scalar
fields through with null (here `none`) as the explicit absent value. -/
def buildDetail (baseUrl : String) (d : DetailData) : DetailOut :=
  let f := d.fields.getD emptyDetailFields
  let attRaw := f.attachment.getD []
  let att := attLookup attRaw
  { key := d.key
    url := baseUrl ++ "/browse/" ++ d.key
    summary := f.summary.getD ""
    status := f.status.bind (fun s => s.name)
    assignee := f.assignee.bind (fun u => u.displayName)
    priority := f.priority.bind (fun s => s.name)
    issueType := f.issuetype.bind (fun s => s.name)
    created := f.created
    fixVersions := (f.fixVersions.getD []).map (fun v => v.name)
    descriptionText :=
      enrichPlaceholders att (jsTrim (adfToPlainText f.description))
    comments := (f.comment.getD []).map (fun c =>
      { id := c.id
        author := c.author.getD "Unknown"
        created := c.created
        bodyText := enrichPlaceholders att (jsTrim (adfToPlainText c.body)) })
    attachments := attRaw.map (fun a =>
      { id := a.id, filename := a.filename, mimeType := a.mimeType,
        size := a.size, contentUrl := a.content }) }

/-- The upstream result of the single detail fetch. -/
inductive DetailFetch where
  | ok : DetailData → DetailFetch
  | err : Nat → String → DetailFetch

/-- A response of the detail endpoint. -/
inductive DetailResponse where
  | ok : DetailOut → DetailResponse
  | error : Nat → String → Option Nat → Option String → DetailResponse

/-- The detail endpoint: a non-success upstream response maps to the
502 envelope with the upstream status and raw body, a success to the
assembled payload. -/
def GETissueDetail (baseUrl : String) : DetailFetch → DetailResponse
  | .err s b => .error 502 "Jira request failed" (some s) (some b)
  | .ok d => .ok (buildDetail baseUrl d)

/-! ## Derived notions used by the statements below -/

/-- A response on which the aggregation loop continues: a page that is
not marked last and carries a truthy continuation token. -/
def contin : FetchResult → Bool
  | .ok p => !(p.isLast.getD true) && !(tokenFalsy p.nextPageToken)
  | .err _ _ => false

/-- The records of a response (empty for an error). -/
def pageIssues : FetchResult → List RawIssue
  | .ok p => p.issues
  | .err _ _ => []

/-- The truthy release names of a fix-version list, in order and with
repetitions, exactly as the grouping loop enumerates them. -/
def truthyNamesFVs : List FixVersion → List String
  | [] => []
  | fv :: rest =>
      match fv.name with
      | some n =>
          if n = "" then truthyNamesFVs rest else n :: truthyNamesFVs rest
      | none => truthyNamesFVs rest

/-- The truthy release names of a record. -/
def truthyNames (r : RawIssue) : List String :=
  truthyNamesFVs ((r.fields.bind (fun f => f.fixVersions)).getD [])

/-- The membership list of the group named `nm` (empty when there is no
such group). -/
def issuesOf (nm : String) (gm : List FvGroup) : List TrimmedIssue :=
  match gm.find? (fun g => g.fixVersion = nm) with
  | some g => g.issues
  | none => []

/-- The ordering property claimed for the sorted group list, relative
to the locale comparison `lc`: a parseable group before a parseable
group has numeric month keys in larger-or-equal order, no unparseable
group precedes a parseable one, and unparseable groups are mutually
nondecreasing under `lc`. -/
def claimOrder (lc : List Char → List Char → Int) (a b : FvGroup) : Prop :=
  match parseLtFixVersion a.fixVersion, parseLtFixVersion b.fixVersion with
  | some pa, some pb =>
      ∃ ka kb, monthKey pa = some ka ∧ monthKey pb = some kb ∧
        kb.toRat ≤ ka.toRat
  | none, some _ => False
  | none, none => lc a.fixVersion.data b.fixVersion.data ≤ 0
  | some _, none => True

/-- Truth of a numeric month: a release name whose parse, if it
succeeds, found its month in the table proper, not on the prototype
chain. -/
def monthNum : MonthVal → Bool
  | .num _ => true
  | .protoVal => false

/-- A name is junk-free when its parse (if any) has a numeric month, so
its sort key is a number rather than NaN. -/
def junkFree (s : String) : Bool :=
  match parseLtFixVersion s with
  | none => true
  | some p => monthNum p.month

/-- A record listing the releases 2024 constructor and 2024 vasaris, in
that order. -/
def cxIssue : RawIssue :=
  ⟨"A-1", some ⟨some "s",
    some [⟨some "2024 constructor", some false⟩,
          ⟨some "2024 vasaris", some false⟩]⟩⟩

/-! # Theorems -/

/-! ## C10: media placeholders -/

/-- C10: a media node with an absent, null or empty id attribute
flattens to exactly the bare attachment token; an id placeholder is
emitted only for a truthy (nonempty) id; and the flattener never emits
the degenerate placeholder with an empty id. -/
theorem c10_media_id_truthiness (o : Option String) :
    (adfToPlainText (.media o) = "[ATTACHMENT]" ↔ o.getD "" = "") ∧
    (∀ i, o = some i → i ≠ "" →
        adfToPlainText (.media o) = "[ATTACHMENT_ID:" ++ i ++ "]") ∧
    adfToPlainText (.media o) ≠ "[ATTACHMENT_ID:]" := by
  have base : adfToPlainText (.media o) =
      (if o.getD "" ≠ "" then "[ATTACHMENT_ID:" ++ o.getD "" ++ "]"
       else "[ATTACHMENT]") := rfl
  by_cases hi : o.getD "" = ""
  · rw [base, if_neg (by simpa using hi)]
    refine ⟨by simpa using hi, ?_, by decide⟩
    intro i hoi hne
    rw [hoi] at hi
    exact absurd hi hne
  · rw [base, if_pos hi]
    have l15 : ("[ATTACHMENT_ID:" : String).length = 15 := by decide
    have l1 : ("]" : String).length = 1 := by decide
    have hlen : ("[ATTACHMENT_ID:" ++ o.getD "" ++ "]").length =
        16 + (o.getD "").length := by
      rw [String.length_append, String.length_append, l15, l1]; omega
    have hpos : 0 < (o.getD "").length := by
      rcases Nat.eq_zero_or_pos (o.getD "").length with h0 | h0
      · exact absurd (String.ext (List.eq_nil_of_length_eq_zero h0)) hi
      · exact h0
    refine ⟨?_, ?_, ?_⟩
    · constructor
      · intro he
        have hc := congrArg String.length he
        rw [hlen] at hc
        have l12 : ("[ATTACHMENT]" : String).length = 12 := by decide
        omega
      · intro he; exact absurd he hi
    · intro i hoi _
      subst hoi
      simp
    · intro he
      have hc := congrArg String.length he
      rw [hlen] at hc
      have l16 : ("[ATTACHMENT_ID:]" : String).length = 16 := by decide
      omega

/-- C10 witness: evaluation at an absent id, an empty id, and the
concrete id 7. -/
theorem c10_media_id_truthiness_witness :
    adfToPlainText (.media (some "7")) = "[ATTACHMENT_ID:7]" ∧
    adfToPlainText (.media none) = "[ATTACHMENT]" ∧
    adfToPlainText (.media (some "")) = "[ATTACHMENT]" := by
  refine ⟨(c10_media_id_truthiness (some "7")).2.1 "7" rfl (by decide), ?_, ?_⟩
  · exact (c10_media_id_truthiness none).1.mpr (by decide)
  · exact (c10_media_id_truthiness (some "")).1.mpr (by decide)

/-! ## C1: text nodes with link marks -/

/-- C1 counterexample: the literal text has a trailing blank, so it is
nonempty, not whitespace-only, and not exactly equal to the href, yet
the flattener emits the href alone rather than the parenthesised form
the claim requires. -/
theorem c1_counterexample :
    adfToPlainText
        (.text (some "http://x ") (some [⟨"link", some "http://x"⟩])) =
      "http://x" ∧
    ("http://x " : String) ≠ "" ∧
    jsTrim "http://x " ≠ "" ∧
    ("http://x " : String) ≠ "http://x" ∧
    ("http://x" : String) ≠ "http://x " ++ " (" ++ "http://x" ++ ")" := by
  decide

/-- C1 (amended): for a text node whose first link mark carries a
truthy href, the flattener emits the href alone exactly when the
literal text is empty, whitespace-only, or trims to the href, and
otherwise emits the unchanged literal text followed by the
parenthesised href. -/
theorem c1_text_link_flatten (t h : String) (ms : List AdfMark)
    (hm : ∃ m, ms.find? (fun mk => mk.type = "link") = some m ∧
        m.href = some h)
    (hh : h ≠ "") :
    adfToPlainText (.text (some t) (some ms)) =
      if jsTrim t = "" ∨ jsTrim t = h then h
      else t ++ " (" ++ h ++ ")" := by
  obtain ⟨m, hfind, hhref⟩ := hm
  have base : adfToPlainText (.text (some t) (some ms)) =
      (if t ≠ "" ∧ jsTrim t ≠ "" ∧ jsTrim t ≠ h
       then t ++ " (" ++ h ++ ")" else h) := by
    show (match (ms.find? (fun mk => mk.type = "link")).bind
        (fun mk => mk.href) with
      | some h0 =>
          if h0 ≠ "" then
            if t ≠ "" ∧ jsTrim t ≠ "" ∧ jsTrim t ≠ h0 then
              t ++ " (" ++ h0 ++ ")"
            else h0
          else t
      | none => t) = _
    rw [hfind, Option.some_bind, hhref]
    simp only [if_pos hh]
  have hts : t = "" → jsTrim t = "" := fun ht => by rw [ht]; rfl
  rw [base]
  by_cases hc : jsTrim t = "" ∨ jsTrim t = h
  · have hneg : ¬(t ≠ "" ∧ jsTrim t ≠ "" ∧ jsTrim t ≠ h) := by
      rintro ⟨_, h2, h3⟩
      rcases hc with hc | hc
      · exact h2 hc
      · exact h3 hc
    rw [if_neg hneg, if_pos hc]
  · push_neg at hc
    have ht : t ≠ "" := fun he => hc.1 (hts he)
    rw [if_pos ⟨ht, hc.1, hc.2⟩, if_neg (not_or.mpr ⟨hc.1, hc.2⟩)]

/-- C1 witness: evaluation of the amended statement at a text that
differs from the href and at a text that trims to the href. -/
theorem c1_text_link_flatten_witness :
    adfToPlainText
        (.text (some "click") (some [⟨"link", some "http://x"⟩])) =
      "click (http://x)" := by
  have h := c1_text_link_flatten "click" "http://x"
    [⟨"link", some "http://x"⟩]
    ⟨⟨"link", some "http://x"⟩, by decide, rfl⟩ (by decide)
  rw [h]; decide

/-! ## C9: optional detail fields -/

/-- C9: the five optional scalar fields of the detail payload are
always part of the response shape, and each surfaces the explicit
absent marker (null, here `none`) exactly when the upstream field is
missing, rather than being omitted. -/
theorem c9_optional_fields_explicit (baseUrl : String) (d : DetailData) :
    ((buildDetail baseUrl d).status =
        ((d.fields.getD emptyDetailFields).status).bind
          (fun s => s.name)) ∧
    ((buildDetail baseUrl d).assignee =
        ((d.fields.getD emptyDetailFields).assignee).bind
          (fun u => u.displayName)) ∧
    ((buildDetail baseUrl d).priority =
        ((d.fields.getD emptyDetailFields).priority).bind
          (fun s => s.name)) ∧
    ((buildDetail baseUrl d).issueType =
        ((d.fields.getD emptyDetailFields).issuetype).bind
          (fun s => s.name)) ∧
    ((buildDetail baseUrl d).created =
        (d.fields.getD emptyDetailFields).created) ∧
    ((d.fields.getD emptyDetailFields).status = none →
        (buildDetail baseUrl d).status = none) ∧
    ((d.fields.getD emptyDetailFields).assignee = none →
        (buildDetail baseUrl d).assignee = none) ∧
    ((d.fields.getD emptyDetailFields).priority = none →
        (buildDetail baseUrl d).priority = none) ∧
    ((d.fields.getD emptyDetailFields).issuetype = none →
        (buildDetail baseUrl d).issueType = none) ∧
    ((d.fields.getD emptyDetailFields).created = none →
        (buildDetail baseUrl d).created = none) := by
  refine ⟨rfl, rfl, rfl, rfl, rfl, ?_, ?_, ?_, ?_, ?_⟩ <;>
    intro h <;> simp [buildDetail, h]

/-! ## C2: the release-name parser -/

/-- The month resolution fails exactly when both the joined remainder
and the second token miss the table. -/
theorem monthOf_eq_none_iff (tail : List (List Char)) (p1 : List Char) :
    monthOf tail p1 = none ↔
      monthLookupL (jsToLowerL (List.intercalate [' '] tail)) = none ∧
      monthLookupL (jsToLowerL p1) = none := by
  unfold monthOf
  cases h : monthLookupL (jsToLowerL (List.intercalate [' '] tail)) <;>
    simp [h]

/-- C2 counterexample: the label with the fractional first token 2024.5
parses successfully (to the non-integer year 2024.5 and month 1),
while the claim requires it to be unparseable; and the label whose
month token is the inherited Object.prototype property name constructor
also parses successfully (with the inherited member as its month),
while the claim requires every month token outside the fixed table to
be unparseable. -/
theorem c2_counterexample :
    parseLtFixVersion "2024.5 sausis" = some ⟨⟨20245, -1⟩, .num 1⟩ ∧
    parseLtFixVersion "2024.5 sausis" ≠ none ∧
    parseLtFixVersion "2024 constructor" = some ⟨⟨2024, 0⟩, .protoVal⟩ ∧
    parseLtFixVersion "2024 constructor" ≠ none := by decide

/-- C2 (amended): parsing reports unparseable exactly when the label
splits into fewer than two whitespace tokens, or the first token does
not convert (by the JS Number conversion) to a finite number between
2000 and 2100, or neither the remaining tokens joined with one blank
and lower-cased nor the lower-cased second token is found by the
bracket lookup — which finds the table's own keys and the properties
inherited from Object.prototype alike. -/
theorem c2_unparseable_iff (name : String) :
    parseLtFixVersion name = none ↔
      ((jsSplitWs (jsTrimL name.data)).length < 2 ∨
       (∀ y, jsNumberL ((jsSplitWs (jsTrimL name.data)).getD 0 []) = some y →
          (DecNum.lt y (DecNum.ofInt 2000) = true ∨
           DecNum.lt (DecNum.ofInt 2100) y = true)) ∨
       (monthLookupL (jsToLowerL (List.intercalate [' ']
            ((jsSplitWs (jsTrimL name.data)).drop 1))) = none ∧
        monthLookupL (jsToLowerL
            ((jsSplitWs (jsTrimL name.data)).getD 1 [])) = none)) := by
  unfold parseLtFixVersion
  cases hp : jsSplitWs (jsTrimL name.data) with
  | nil => simp
  | cons p0 rest =>
    cases rest with
    | nil => simp
    | cons p1 rs =>
      simp only [List.getD_cons_zero, List.getD_cons_succ,
        List.drop_succ_cons, List.drop_zero, List.length_cons]
      rw [← monthOf_eq_none_iff (p1 :: rs) p1]
      split
      next hy => simp [hy]
      next y hy =>
        rw [hy]
        split
        next hc =>
          refine iff_of_true rfl (Or.inr (Or.inl ?_))
          intro y2 hy2
          cases hy2
          exact hc
        next hc =>
          split
          next hm => exact iff_of_true rfl (Or.inr (Or.inr hm))
          next mo hm =>
            refine iff_of_false (by simp) ?_
            rintro (hl | hall | h3)
            · omega
            · exact hc (hall y rfl)
            · rw [hm] at h3; exact Option.noConfusion h3

/-- C9 witness: a detail payload with no fields object at all surfaces
every optional scalar as the explicit absent marker. -/
theorem c9_optional_fields_explicit_witness :
    (buildDetail "u" ⟨"K-1", none⟩).status = none ∧
    (buildDetail "u" ⟨"K-1", none⟩).assignee = none ∧
    (buildDetail "u" ⟨"K-1", none⟩).priority = none ∧
    (buildDetail "u" ⟨"K-1", none⟩).issueType = none ∧
    (buildDetail "u" ⟨"K-1", none⟩).created = none := by
  have h := c9_optional_fields_explicit "u" ⟨"K-1", none⟩
  exact ⟨h.2.2.2.2.2.1 rfl, h.2.2.2.2.2.2.1 rfl, h.2.2.2.2.2.2.2.1 rfl,
    h.2.2.2.2.2.2.2.2.1 rfl, h.2.2.2.2.2.2.2.2.2 rfl⟩

/-! ## The aggregation loop: C5, C6, C8 -/

/-- Unfolding of the loop at fuel zero. -/
theorem aggGo_zero (resps : Nat → FetchResult) (i : Nat)
    (acc : List RawIssue) : aggGo resps 0 i acc = (.ok acc, 0) := rfl

/-- Unfolding of the loop on an upstream failure. -/
theorem aggGo_succ_err (resps : Nat → FetchResult) (f i : Nat)
    (acc : List RawIssue) (s : Nat) (b : String)
    (h : resps i = .err s b) :
    aggGo resps (f + 1) i acc = (.httpError s b, 1) := by
  simp [aggGo, h]

/-- Unfolding of the loop on a page that stops pagination. -/
theorem aggGo_succ_stop (resps : Nat → FetchResult) (f i : Nat)
    (acc : List RawIssue) (p : PageData) (h : resps i = .ok p)
    (hs : (p.isLast.getD true || tokenFalsy p.nextPageToken) = true) :
    aggGo resps (f + 1) i acc = (.ok (acc ++ p.issues), 1) := by
  simp [aggGo, h, hs]

/-- Unfolding of the loop on a page that continues pagination. -/
theorem aggGo_succ_go (resps : Nat → FetchResult) (f i : Nat)
    (acc : List RawIssue) (p : PageData) (h : resps i = .ok p)
    (hs : (p.isLast.getD true || tokenFalsy p.nextPageToken) = false) :
    aggGo resps (f + 1) i acc =
      ((aggGo resps f (i + 1) (acc ++ p.issues)).1,
       (aggGo resps f (i + 1) (acc ++ p.issues)).2 + 1) := by
  simp [aggGo, h, hs]

/-- A response on which the loop continues is a page that is not last
and has a truthy token. -/
theorem contin_ok {r : FetchResult} (h : contin r = true) :
    ∃ p, r = .ok p ∧ p.isLast.getD true = false ∧
      tokenFalsy p.nextPageToken = false := by
  cases r with
  | ok p =>
      have h2 : p.isLast.getD true = false ∧
          tokenFalsy p.nextPageToken = false := by simpa [contin] using h
      exact ⟨p, rfl, h2.1, h2.2⟩
  | err s b => simp [contin] at h

/-- Splitting the flattened pages of one more request off the front. -/
theorem pages_cons (resps : Nat → FetchResult) (i f : Nat) :
    ((List.range (f + 1)).map
        (fun j => pageIssues (resps (i + j)))).flatten =
      pageIssues (resps i) ++
        ((List.range f).map
          (fun j => pageIssues (resps (i + 1 + j)))).flatten := by
  rw [List.range_succ_eq_map]
  simp only [List.map_cons, List.flatten_cons, List.map_map]
  have e2 : List.map ((fun j => pageIssues (resps (i + j))) ∘ Nat.succ)
      (List.range f) =
      List.map (fun j => pageIssues (resps (i + 1 + j))) (List.range f) :=
    List.map_congr_left (fun j _ => by
      simp only [Function.comp_apply]
      congr 2
      omega)
  rw [e2]
  simp

/-- The loop issues at most as many requests as it has fuel. -/
theorem aggGo_count_le (resps : Nat → FetchResult) :
    ∀ fuel i acc, (aggGo resps fuel i acc).2 ≤ fuel := by
  intro fuel
  induction fuel with
  | zero => intro i acc; simp [aggGo_zero]
  | succ f ih =>
      intro i acc
      cases hr : resps i with
      | err s b => rw [aggGo_succ_err resps f i acc s b hr]; simp
      | ok p =>
          by_cases hs : (p.isLast.getD true || tokenFalsy p.nextPageToken)
            = true
          · rw [aggGo_succ_stop resps f i acc p hr hs]; simp
          · rw [aggGo_succ_go resps f i acc p hr
              (Bool.not_eq_true _ ▸ hs)]
            have := ih (i + 1) (acc ++ p.issues)
            simpa using Nat.succ_le_succ this

/-- If every response within the fuel budget continues, the loop spends
all its fuel and accumulates every page in order. -/
theorem aggGo_all_contin (resps : Nat → FetchResult) :
    ∀ fuel i acc, (∀ j, j < fuel → contin (resps (i + j)) = true) →
    aggGo resps fuel i acc =
      (.ok (acc ++ ((List.range fuel).map
          (fun j => pageIssues (resps (i + j)))).flatten), fuel) := by
  intro fuel
  induction fuel with
  | zero => intro i acc _; simp [aggGo_zero]
  | succ f ih =>
      intro i acc h
      obtain ⟨p, hp, hl, ht⟩ := contin_ok (by simpa using h 0 (Nat.succ_pos f))
      rw [aggGo_succ_go resps f i acc p hp (by simp [hl, ht])]
      rw [ih (i + 1) (acc ++ p.issues) (fun j hj => by
        have := h (j + 1) (by omega)
        rwa [show i + (j + 1) = i + 1 + j by omega] at this)]
      rw [pages_cons resps i f]
      simp [hp, pageIssues]

/-- If the first `k` responses continue and the response `k` stops, the
loop (given fuel beyond `k`) returns the first `k + 1` pages in order
with `k + 1` requests issued. -/
theorem aggGo_stop_at (resps : Nat → FetchResult) :
    ∀ k fuel i acc, k < fuel →
    (∀ j, j < k → contin (resps (i + j)) = true) →
    (∃ p, resps (i + k) = .ok p ∧
        (p.isLast.getD true || tokenFalsy p.nextPageToken) = true) →
    aggGo resps fuel i acc =
      (.ok (acc ++ ((List.range (k + 1)).map
          (fun j => pageIssues (resps (i + j)))).flatten), k + 1) := by
  intro k
  induction k with
  | zero =>
      intro fuel i acc hk _ hstop
      obtain ⟨p, hp, hs⟩ := hstop
      cases fuel with
      | zero => omega
      | succ f =>
          have hp2 : resps i = .ok p := by simpa using hp
          rw [aggGo_succ_stop resps f i acc p hp2 hs]
          rw [pages_cons resps i 0]
          simp [pageIssues, hp2]
  | succ k ih =>
      intro fuel i acc hk hcont hstop
      cases fuel with
      | zero => omega
      | succ f =>
          obtain ⟨p, hp, hl, ht⟩ :=
            contin_ok (by simpa using hcont 0 (Nat.succ_pos k))
          rw [aggGo_succ_go resps f i acc p hp (by simp [hl, ht])]
          rw [ih f (i + 1) (acc ++ p.issues) (by omega)
            (fun j hj => by
              have := hcont (j + 1) (by omega)
              rwa [show i + (j + 1) = i + 1 + j by omega] at this)
            (by
              obtain ⟨q, hq, hqs⟩ := hstop
              exact ⟨q, by rwa [show i + 1 + k = i + (k + 1) by omega], hqs⟩)]
          rw [pages_cons resps i (k + 1)]
          simp [pageIssues, hp]

/-- If the first `k` responses continue and the response `k` fails, the
loop aborts at request `k + 1` with the upstream status and body and no
accumulated records. -/
theorem aggGo_err_at (resps : Nat → FetchResult) (s : Nat) (b : String) :
    ∀ k fuel i acc, k < fuel →
    (∀ j, j < k → contin (resps (i + j)) = true) →
    resps (i + k) = .err s b →
    aggGo resps fuel i acc = (.httpError s b, k + 1) := by
  intro k
  induction k with
  | zero =>
      intro fuel i acc hk _ herr
      cases fuel with
      | zero => omega
      | succ f => exact aggGo_succ_err resps f i acc s b (by simpa using herr)
  | succ k ih =>
      intro fuel i acc hk hcont herr
      cases fuel with
      | zero => omega
      | succ f =>
          obtain ⟨p, hp, hl, ht⟩ :=
            contin_ok (by simpa using hcont 0 (Nat.succ_pos k))
          rw [aggGo_succ_go resps f i acc p hp (by simp [hl, ht])]
          rw [ih f (i + 1) (acc ++ p.issues) (by omega)
            (fun j hj => by
              have := hcont (j + 1) (by omega)
              rwa [show i + (j + 1) = i + 1 + j by omega] at this)
            (by rwa [show i + 1 + k = i + (k + 1) by omega])]

/-- C5: the paged aggregator issues at most 30 requests; and when every
one of the first 30 responses still offers a continuation, the loop
stops silently at the bound, returning the records accumulated from
those 30 pages as a success (not an error). -/
theorem c5_page_bound (resps : Nat → FetchResult) :
    (runAgg resps).2 ≤ 30 ∧
    ((∀ i, i < 30 → contin (resps i) = true) →
      runAgg resps =
        (.ok (((List.range 30).map (fun i => pageIssues (resps i))).flatten),
         30)) := by
  constructor
  · exact aggGo_count_le resps 30 0 []
  · intro h
    have := aggGo_all_contin resps 30 0 []
      (fun j hj => by simpa using h j hj)
    simpa using this

/-- C5 witness: a server that always offers another page is cut off at
30 requests with the 30 accumulated records and a success outcome. -/
theorem c5_page_bound_witness :
    (runAgg (fun _ => .ok ⟨[⟨"A-1", none⟩], some "t", some false⟩)).2 ≤ 30 ∧
    runAgg (fun _ => .ok ⟨[⟨"A-1", none⟩], some "t", some false⟩) =
      (.ok (List.replicate 30 ⟨"A-1", none⟩), 30) := by
  have h := c5_page_bound (fun _ => .ok ⟨[⟨"A-1", none⟩], some "t", some false⟩)
  refine ⟨h.1, (h.2 (fun i _ => by decide)).trans ?_⟩
  decide

/-- C6: when the first pages all continue and page `n` (1-based) either
marks itself last or offers no usable cursor, and the bound is not hit,
the aggregator succeeds with exactly the records of the `n` pages, each
once, in page order and within-page order, after exactly `n`
requests. -/
theorem c6_accumulates_pages (resps : Nat → FetchResult) (n : Nat)
    (hn : 0 < n) (hle : n ≤ 30)
    (hcont : ∀ j, j + 1 < n → contin (resps j) = true)
    (hstop : ∃ p, resps (n - 1) = .ok p ∧
        (p.isLast.getD true || tokenFalsy p.nextPageToken) = true) :
    runAgg resps =
      (.ok (((List.range n).map (fun j => pageIssues (resps j))).flatten),
       n) := by
  have h := aggGo_stop_at resps (n - 1) 30 0 []
    (by omega)
    (fun j hj => by simpa using hcont j (by omega))
    (by simpa using hstop)
  rw [show n - 1 + 1 = n by omega] at h
  simpa using h

/-- C6 witness: three pages, the third marked last, accumulate all five
records exactly once in page-then-position order. -/
theorem c6_accumulates_pages_witness :
    runAgg (fun i =>
      if i = 0 then .ok ⟨[⟨"A-1", none⟩, ⟨"A-2", none⟩], some "t1", some false⟩
      else if i = 1 then .ok ⟨[⟨"A-3", none⟩], some "t2", some false⟩
      else .ok ⟨[⟨"A-4", none⟩, ⟨"A-5", none⟩], none, some true⟩) =
      (.ok [⟨"A-1", none⟩, ⟨"A-2", none⟩, ⟨"A-3", none⟩, ⟨"A-4", none⟩,
            ⟨"A-5", none⟩], 3) := by
  have h := c6_accumulates_pages (fun i =>
      if i = 0 then .ok ⟨[⟨"A-1", none⟩, ⟨"A-2", none⟩], some "t1", some false⟩
      else if i = 1 then .ok ⟨[⟨"A-3", none⟩], some "t2", some false⟩
      else .ok ⟨[⟨"A-4", none⟩, ⟨"A-5", none⟩], none, some true⟩) 3
    (by decide) (by decide)
    (fun j hj => by
      have hj2 : j < 2 := by omega
      interval_cases j <;> decide)
    ⟨⟨[⟨"A-4", none⟩, ⟨"A-5", none⟩], none, some true⟩, by decide, by decide⟩
  rw [h]
  decide

/-- C8: a non-success upstream response after `k` continuing pages
aborts the aggregation immediately (request `k + 1` is the last) with
no partial result, and both endpoints surface it as the 502 envelope
with the upstream status code and raw body. -/
theorem c8_upstream_failure (lc : List Char → List Char → Int)
    (baseUrl : String) (resps : Nat → FetchResult)
    (k s : Nat) (b : String) (hk : k < 30)
    (hcont : ∀ j, j < k → contin (resps j) = true)
    (herr : resps k = .err s b) :
    runAgg resps = (.httpError s b, k + 1) ∧
    GETissues lc baseUrl resps =
      .error 502 "Jira request failed" (some s) (some b) ∧
    GETissueDetail baseUrl (.err s b) =
      .error 502 "Jira request failed" (some s) (some b) := by
  have hrun : runAgg resps = (.httpError s b, k + 1) :=
    aggGo_err_at resps s b k 30 0 [] hk
      (fun j hj => by simpa using hcont j hj)
      (by simpa using herr)
  refine ⟨hrun, ?_, rfl⟩
  unfold GETissues
  rw [hrun]

/-! ## C3: group ordering -/

/-- Cross-scaled integer comparison agrees with rational comparison
when the left exponent is the smaller one. -/
theorem scaled_le_left (m n : Int) (e f : Int) (h : e ≤ f) :
    (m : ℚ) * (10 : ℚ) ^ e ≤ (n : ℚ) * (10 : ℚ) ^ f ↔
      m ≤ n * 10 ^ (f - e).toNat := by
  have h10 : (0 : ℚ) < (10 : ℚ) ^ e := zpow_pos (by norm_num) e
  have hf : (10 : ℚ) ^ f = (10 : ℚ) ^ ((f - e).toNat : Int) * 10 ^ e := by
    rw [← zpow_add₀ (by norm_num : (10 : ℚ) ≠ 0)]
    congr 1
    omega
  rw [hf, ← mul_assoc, mul_le_mul_right h10, zpow_natCast]
  exact_mod_cast Iff.rfl

/-- Cross-scaled integer comparison agrees with rational comparison
when the right exponent is the smaller one. -/
theorem scaled_le_right (m n : Int) (e f : Int) (h : f ≤ e) :
    (m : ℚ) * (10 : ℚ) ^ e ≤ (n : ℚ) * (10 : ℚ) ^ f ↔
      m * 10 ^ (e - f).toNat ≤ n := by
  have h10 : (0 : ℚ) < (10 : ℚ) ^ f := zpow_pos (by norm_num) f
  have he : (10 : ℚ) ^ e = (10 : ℚ) ^ ((e - f).toNat : Int) * 10 ^ f := by
    rw [← zpow_add₀ (by norm_num : (10 : ℚ) ≠ 0)]
    congr 1
    omega
  rw [he, ← mul_assoc, mul_le_mul_right h10, zpow_natCast]
  exact_mod_cast Iff.rfl

/-- The boolean comparison of exact decimals mirrors the comparison of
their rational values. -/
theorem DecNum.le_eq_true_iff (a b : DecNum) :
    DecNum.le a b = true ↔ a.toRat ≤ b.toRat := by
  unfold DecNum.le DecNum.toRat
  by_cases h : a.exp ≤ b.exp
  · rw [if_pos h]
    simp only [decide_eq_true_eq]
    exact (scaled_le_left a.man b.man a.exp b.exp h).symm
  · rw [if_neg h]
    simp only [decide_eq_true_eq]
    exact (scaled_le_right a.man b.man a.exp b.exp (by omega)).symm

/-- The rational value of an integer decimal. -/
theorem DecNum.toRat_ofInt (n : Int) : (DecNum.ofInt n).toRat = n := by
  simp [DecNum.ofInt, DecNum.toRat]

/-- The rational value of a negated decimal. -/
theorem DecNum.toRat_neg (d : DecNum) : d.neg.toRat = -d.toRat := by
  simp [DecNum.neg, DecNum.toRat]

/-- The rational value of a sum of decimals. -/
theorem DecNum.toRat_add (a b : DecNum) :
    (a.add b).toRat = a.toRat + b.toRat := by
  unfold DecNum.add DecNum.toRat
  by_cases h : a.exp ≤ b.exp
  · rw [if_pos h]
    have hb : (10 : ℚ) ^ b.exp =
        (10 : ℚ) ^ ((b.exp - a.exp).toNat : Int) * 10 ^ a.exp := by
      rw [← zpow_add₀ (by norm_num : (10 : ℚ) ≠ 0)]
      congr 1
      omega
    simp only []
    rw [hb, zpow_natCast]
    push_cast
    ring
  · rw [if_neg h]
    have ha : (10 : ℚ) ^ a.exp =
        (10 : ℚ) ^ ((a.exp - b.exp).toNat : Int) * 10 ^ b.exp := by
      rw [← zpow_add₀ (by norm_num : (10 : ℚ) ≠ 0)]
      congr 1
      omega
    simp only []
    rw [ha, zpow_natCast]
    push_cast
    ring

/-- The rational value of a difference of decimals. -/
theorem DecNum.toRat_sub (a b : DecNum) :
    (a.sub b).toRat = a.toRat - b.toRat := by
  unfold DecNum.sub
  rw [DecNum.toRat_add, DecNum.toRat_neg]
  ring

/-- The three-way code-point comparison is nonpositive exactly for the
smaller-or-equal character list. -/
theorem cpCmp_nonpos_iff (a b : List Char) : cpCmp a b ≤ 0 ↔ a ≤ b := by
  unfold cpCmp
  by_cases he : a = b
  · subst he
    simp
  · by_cases hl : a < b
    · rw [if_neg he, if_pos hl]
      exact iff_of_true (by norm_num) (le_of_lt hl)
    · rw [if_neg he, if_neg hl]
      refine iff_of_false (by norm_num) ?_
      intro hle
      exact he (le_antisymm hle (le_of_not_lt hl))

/-- The code-point comparison is total. -/
theorem cpCmp_total (a b : List Char) : cpCmp a b ≤ 0 ∨ cpCmp b a ≤ 0 := by
  rcases le_total a b with h | h
  · exact Or.inl ((cpCmp_nonpos_iff a b).mpr h)
  · exact Or.inr ((cpCmp_nonpos_iff b a).mpr h)

/-- The code-point comparison is transitive. -/
theorem cpCmp_trans (a b c : List Char) (hab : cpCmp a b ≤ 0)
    (hbc : cpCmp b c ≤ 0) : cpCmp a c ≤ 0 :=
  (cpCmp_nonpos_iff a c).mpr
    (le_trans ((cpCmp_nonpos_iff a b).mp hab)
      ((cpCmp_nonpos_iff b c).mp hbc))

/-- An integer decimal is nonpositive exactly when the integer is. -/
theorem DecNum.ofInt_le_zero_iff (n : Int) :
    DecNum.le (DecNum.ofInt n) (DecNum.ofInt 0) = true ↔ n ≤ 0 := by
  rw [DecNum.le_eq_true_iff, DecNum.toRat_ofInt, DecNum.toRat_ofInt]
  exact_mod_cast Iff.rfl

/-- A difference of decimals is nonpositive exactly when the minuend is
at most the subtrahend. -/
theorem DecNum.sub_le_zero_iff (x y : DecNum) :
    DecNum.le (x.sub y) (DecNum.ofInt 0) = true ↔ x.toRat ≤ y.toRat := by
  rw [DecNum.le_eq_true_iff, DecNum.toRat_sub, DecNum.toRat_ofInt]
  push_cast
  constructor <;> intro h <;> linarith

/-- The comparator on two unparseable names is the locale comparison. -/
theorem cmpGroups_none_none (lc : List Char → List Char → Int)
    {a b : FvGroup} (hpa : parseLtFixVersion a.fixVersion = none)
    (hpb : parseLtFixVersion b.fixVersion = none) :
    cmpGroups lc a b =
      some (DecNum.ofInt (lc a.fixVersion.data b.fixVersion.data)) := by
  unfold cmpGroups
  rw [hpa, hpb]

/-- The comparator with only the left name unparseable is plus one. -/
theorem cmpGroups_none_some (lc : List Char → List Char → Int)
    {a b : FvGroup} {pb : YM}
    (hpa : parseLtFixVersion a.fixVersion = none)
    (hpb : parseLtFixVersion b.fixVersion = some pb) :
    cmpGroups lc a b = some (DecNum.ofInt 1) := by
  unfold cmpGroups
  rw [hpa, hpb]

/-- The comparator with only the right name unparseable is minus one. -/
theorem cmpGroups_some_none (lc : List Char → List Char → Int)
    {a b : FvGroup} {pa : YM}
    (hpa : parseLtFixVersion a.fixVersion = some pa)
    (hpb : parseLtFixVersion b.fixVersion = none) :
    cmpGroups lc a b = some (DecNum.ofInt (-1)) := by
  unfold cmpGroups
  rw [hpa, hpb]

/-- The comparator on two parseable names with numeric keys is the key
difference, right key minus left key. -/
theorem cmpGroups_keys (lc : List Char → List Char → Int)
    {a b : FvGroup} {pa pb : YM} {ka kb : DecNum}
    (hpa : parseLtFixVersion a.fixVersion = some pa)
    (hpb : parseLtFixVersion b.fixVersion = some pb)
    (hka : monthKey pa = some ka) (hkb : monthKey pb = some kb) :
    cmpGroups lc a b = some (kb.sub ka) := by
  unfold cmpGroups
  rw [hpa, hpb]
  show (match monthKey pb, monthKey pa with
        | some kb, some ka => some (kb.sub ka)
        | _, _ => none) = some (kb.sub ka)
  rw [hka, hkb]

/-- The comparator on two parseable names is NaN when the left key is
non-numeric. -/
theorem cmpGroups_nan_left (lc : List Char → List Char → Int)
    {a b : FvGroup} {pa pb : YM}
    (hpa : parseLtFixVersion a.fixVersion = some pa)
    (hpb : parseLtFixVersion b.fixVersion = some pb)
    (hka : monthKey pa = none) : cmpGroups lc a b = none := by
  unfold cmpGroups
  rw [hpa, hpb]
  show (match monthKey pb, monthKey pa with
        | some kb, some ka => some (kb.sub ka)
        | _, _ => none) = none
  cases hkb : monthKey pb <;> rw [hka]

/-- The comparator on two parseable names is NaN when the right key is
non-numeric. -/
theorem cmpGroups_nan_right (lc : List Char → List Char → Int)
    {a b : FvGroup} {pa pb : YM}
    (hpa : parseLtFixVersion a.fixVersion = some pa)
    (hpb : parseLtFixVersion b.fixVersion = some pb)
    (hkb : monthKey pb = none) : cmpGroups lc a b = none := by
  unfold cmpGroups
  rw [hpa, hpb]
  show (match monthKey pb, monthKey pa with
        | some kb, some ka => some (kb.sub ka)
        | _, _ => none) = none
  rw [hkb]

/-- The sort relation holds outright on a NaN comparator value. -/
theorem groupLe_of_cmp_none (lc : List Char → List Char → Int)
    {a b : FvGroup} (h : cmpGroups lc a b = none) : groupLe lc a b := by
  unfold groupLe groupLeB
  rw [h]

/-- On a numeric comparator value the sort relation is its
nonpositivity. -/
theorem groupLe_iff_of_cmp_some (lc : List Char → List Char → Int)
    {a b : FvGroup} {d : DecNum} (h : cmpGroups lc a b = some d) :
    groupLe lc a b ↔ DecNum.le d (DecNum.ofInt 0) = true := by
  unfold groupLe groupLeB
  rw [h]

/-- A junk-free name that parses has a numeric month key. -/
theorem monthKey_some_of_junkFree {s : String} {p : YM}
    (hj : junkFree s = true) (hp : parseLtFixVersion s = some p) :
    ∃ k, monthKey p = some k := by
  unfold junkFree at hj
  rw [hp] at hj
  have hm : monthNum p.month = true := hj
  cases hmm : p.month with
  | num m =>
      refine ⟨(p.year.mul (DecNum.ofInt 100)).add (DecNum.ofInt m), ?_⟩
      unfold monthKey
      rw [hmm]
  | protoVal =>
      rw [hmm] at hm
      exact absurd hm (by decide)

/-- The sort relation is total whenever the locale comparison is: a NaN
comparator value relates both ways. -/
theorem groupLe_total (lc : List Char → List Char → Int)
    (hto : ∀ x y, lc x y ≤ 0 ∨ lc y x ≤ 0) (a b : FvGroup) :
    groupLe lc a b ∨ groupLe lc b a := by
  cases hpa : parseLtFixVersion a.fixVersion with
  | none =>
      cases hpb : parseLtFixVersion b.fixVersion with
      | none =>
          rcases hto a.fixVersion.data b.fixVersion.data with h | h
          · exact Or.inl ((groupLe_iff_of_cmp_some lc
              (cmpGroups_none_none lc hpa hpb)).mpr
              ((DecNum.ofInt_le_zero_iff _).mpr h))
          · exact Or.inr ((groupLe_iff_of_cmp_some lc
              (cmpGroups_none_none lc hpb hpa)).mpr
              ((DecNum.ofInt_le_zero_iff _).mpr h))
      | some pb =>
          exact Or.inr ((groupLe_iff_of_cmp_some lc
            (cmpGroups_some_none lc hpb hpa)).mpr (by decide))
  | some pa =>
      cases hpb : parseLtFixVersion b.fixVersion with
      | none =>
          exact Or.inl ((groupLe_iff_of_cmp_some lc
            (cmpGroups_some_none lc hpa hpb)).mpr (by decide))
      | some pb =>
          cases hka : monthKey pa with
          | none =>
              exact Or.inl (groupLe_of_cmp_none lc
                (cmpGroups_nan_left lc hpa hpb hka))
          | some ka =>
              cases hkb : monthKey pb with
              | none =>
                  exact Or.inl (groupLe_of_cmp_none lc
                    (cmpGroups_nan_right lc hpa hpb hkb))
              | some kb =>
                  rcases le_total kb.toRat ka.toRat with h | h
                  · exact Or.inl ((groupLe_iff_of_cmp_some lc
                      (cmpGroups_keys lc hpa hpb hka hkb)).mpr
                      ((DecNum.sub_le_zero_iff _ _).mpr h))
                  · exact Or.inr ((groupLe_iff_of_cmp_some lc
                      (cmpGroups_keys lc hpb hpa hkb hka)).mpr
                      ((DecNum.sub_le_zero_iff _ _).mpr h))

/-- The sort relation is transitive on junk-free groups whenever the
locale comparison is transitive. -/
theorem groupLe_trans_of (lc : List Char → List Char → Int)
    (htr : ∀ x y z, lc x y ≤ 0 → lc y z ≤ 0 → lc x z ≤ 0)
    (a b c : FvGroup) (ha : junkFree a.fixVersion = true)
    (hb : junkFree b.fixVersion = true) (hc : junkFree c.fixVersion = true)
    (hab : groupLe lc a b) (hbc : groupLe lc b c) : groupLe lc a c := by
  cases hpa : parseLtFixVersion a.fixVersion with
  | none =>
      cases hpc : parseLtFixVersion c.fixVersion with
      | none =>
          cases hpb : parseLtFixVersion b.fixVersion with
          | none =>
              have h1 := (DecNum.ofInt_le_zero_iff _).mp
                ((groupLe_iff_of_cmp_some lc
                  (cmpGroups_none_none lc hpa hpb)).mp hab)
              have h2 := (DecNum.ofInt_le_zero_iff _).mp
                ((groupLe_iff_of_cmp_some lc
                  (cmpGroups_none_none lc hpb hpc)).mp hbc)
              exact (groupLe_iff_of_cmp_some lc
                (cmpGroups_none_none lc hpa hpc)).mpr
                ((DecNum.ofInt_le_zero_iff _).mpr (htr _ _ _ h1 h2))
          | some pb =>
              have h1 := (DecNum.ofInt_le_zero_iff _).mp
                ((groupLe_iff_of_cmp_some lc
                  (cmpGroups_none_some lc hpa hpb)).mp hab)
              exact absurd h1 (by norm_num)
      | some pc =>
          cases hpb : parseLtFixVersion b.fixVersion with
          | none =>
              have h2 := (DecNum.ofInt_le_zero_iff _).mp
                ((groupLe_iff_of_cmp_some lc
                  (cmpGroups_none_some lc hpb hpc)).mp hbc)
              exact absurd h2 (by norm_num)
          | some pb =>
              have h1 := (DecNum.ofInt_le_zero_iff _).mp
                ((groupLe_iff_of_cmp_some lc
                  (cmpGroups_none_some lc hpa hpb)).mp hab)
              exact absurd h1 (by norm_num)
  | some pa =>
      cases hpc : parseLtFixVersion c.fixVersion with
      | none =>
          exact (groupLe_iff_of_cmp_some lc
            (cmpGroups_some_none lc hpa hpc)).mpr (by decide)
      | some pc =>
          cases hpb : parseLtFixVersion b.fixVersion with
          | none =>
              have h2 := (DecNum.ofInt_le_zero_iff _).mp
                ((groupLe_iff_of_cmp_some lc
                  (cmpGroups_none_some lc hpb hpc)).mp hbc)
              exact absurd h2 (by norm_num)
          | some pb =>
              obtain ⟨ka, hka⟩ := monthKey_some_of_junkFree ha hpa
              obtain ⟨kb, hkb⟩ := monthKey_some_of_junkFree hb hpb
              obtain ⟨kc, hkc⟩ := monthKey_some_of_junkFree hc hpc
              have h1 := (DecNum.sub_le_zero_iff _ _).mp
                ((groupLe_iff_of_cmp_some lc
                  (cmpGroups_keys lc hpa hpb hka hkb)).mp hab)
              have h2 := (DecNum.sub_le_zero_iff _ _).mp
                ((groupLe_iff_of_cmp_some lc
                  (cmpGroups_keys lc hpb hpc hkb hkc)).mp hbc)
              exact (groupLe_iff_of_cmp_some lc
                (cmpGroups_keys lc hpa hpc hka hkc)).mpr
                ((DecNum.sub_le_zero_iff _ _).mpr (le_trans h2 h1))

/-- Inserting an element into a pairwise-ordered list preserves the
order, for a relation total and transitive on a property covering the
element and the list. -/
theorem pairwise_orderedInsert {α : Type} (r : α → α → Prop)
    [DecidableRel r] (P : α → Prop)
    (htot : ∀ a b, P a → P b → r a b ∨ r b a)
    (htr : ∀ a b c, P a → P b → P c → r a b → r b c → r a c)
    (l : List α) : ∀ a : α, P a → (∀ x ∈ l, P x) → l.Pairwise r →
      (List.orderedInsert r a l).Pairwise r := by
  induction l with
  | nil =>
      intro a _ _ _
      simp
  | cons b t ih =>
      intro a hPa hPl hp
      rcases List.pairwise_cons.mp hp with ⟨hbt, hpt⟩
      show (if r a b then a :: b :: t else
        b :: List.orderedInsert r a t).Pairwise r
      by_cases hab : r a b
      · rw [if_pos hab]
        refine List.pairwise_cons.mpr ⟨?_, hp⟩
        intro x hx
        rcases List.mem_cons.mp hx with h1 | h2
        · subst h1
          exact hab
        · exact htr a b x hPa (hPl b (List.mem_cons_self b t))
            (hPl x (List.mem_cons_of_mem b h2)) hab (hbt x h2)
      · rw [if_neg hab]
        have hba : r b a :=
          (htot a b hPa (hPl b (List.mem_cons_self b t))).resolve_left hab
        refine List.pairwise_cons.mpr ⟨?_, ih a hPa
          (fun x hx => hPl x (List.mem_cons_of_mem b hx)) hpt⟩
        intro y hy
        rcases List.mem_cons.mp
            ((List.perm_orderedInsert r a t).mem_iff.mp hy) with h1 | h2
        · subst h1
          exact hba
        · exact hbt y h2

/-- The insertion sort of a list all of whose elements satisfy a
property on which the relation is total and transitive is pairwise
ordered. -/
theorem pairwise_insertionSort {α : Type} (r : α → α → Prop)
    [DecidableRel r] (P : α → Prop)
    (htot : ∀ a b, P a → P b → r a b ∨ r b a)
    (htr : ∀ a b c, P a → P b → P c → r a b → r b c → r a c)
    (l : List α) :
    (∀ x ∈ l, P x) → (List.insertionSort r l).Pairwise r := by
  induction l with
  | nil =>
      intro _
      simp
  | cons a t ih =>
      intro hl
      have hPt : ∀ x ∈ t, P x := fun x hx =>
        hl x (List.mem_cons_of_mem a hx)
      show (List.orderedInsert r a (List.insertionSort r t)).Pairwise r
      exact pairwise_orderedInsert r P htot htr (List.insertionSort r t) a
        (hl a (List.mem_cons_self a t))
        (fun x hx => hPt x ((List.perm_insertionSort r t).mem_iff.mp hx))
        (ih hPt)

/-- On junk-free groups the sort relation implies the claimed ordering
relation. -/
theorem groupLe_imp_claimOrder (lc : List Char → List Char → Int)
    (a b : FvGroup) (ha : junkFree a.fixVersion = true)
    (hb : junkFree b.fixVersion = true) (h : groupLe lc a b) :
    claimOrder lc a b := by
  unfold claimOrder
  cases hpa : parseLtFixVersion a.fixVersion with
  | none =>
      cases hpb : parseLtFixVersion b.fixVersion with
      | none =>
          exact (DecNum.ofInt_le_zero_iff _).mp
            ((groupLe_iff_of_cmp_some lc
              (cmpGroups_none_none lc hpa hpb)).mp h)
      | some pb =>
          have h1 := (DecNum.ofInt_le_zero_iff _).mp
            ((groupLe_iff_of_cmp_some lc
              (cmpGroups_none_some lc hpa hpb)).mp h)
          exact absurd h1 (by norm_num)
  | some pa =>
      cases hpb : parseLtFixVersion b.fixVersion with
      | none => trivial
      | some pb =>
          obtain ⟨ka, hka⟩ := monthKey_some_of_junkFree ha hpa
          obtain ⟨kb, hkb⟩ := monthKey_some_of_junkFree hb hpb
          exact ⟨ka, kb, hka, hkb, (DecNum.sub_le_zero_iff _ _).mp
            ((groupLe_iff_of_cmp_some lc
              (cmpGroups_keys lc hpa hpb hka hkb)).mp h)⟩

/-- The sorted group list of junk-free groups is pairwise in the
claimed order, for a total and transitive locale comparison. -/
theorem sortGroups_pairwise (lc : List Char → List Char → Int)
    (hto : ∀ x y, lc x y ≤ 0 ∨ lc y x ≤ 0)
    (htr : ∀ x y z, lc x y ≤ 0 → lc y z ≤ 0 → lc x z ≤ 0)
    (gs : List FvGroup) (hj : ∀ g ∈ gs, junkFree g.fixVersion = true) :
    (sortGroups lc gs).Pairwise (claimOrder lc) := by
  have hgl : (List.insertionSort (groupLe lc) gs).Pairwise (groupLe lc) :=
    pairwise_insertionSort (groupLe lc)
      (fun g => junkFree g.fixVersion = true)
      (fun a b _ _ => groupLe_total lc hto a b)
      (groupLe_trans_of lc htr) gs hj
  refine List.Pairwise.imp_of_mem ?_ hgl
  intro a b hma hmb hab
  exact groupLe_imp_claimOrder lc a b
    (hj a ((List.perm_insertionSort (groupLe lc) gs).mem_iff.mp hma))
    (hj b ((List.perm_insertionSort (groupLe lc) gs).mem_iff.mp hmb)) hab

/-- C3 counterexample: one record lists the releases 2024 constructor
and 2024 vasaris, in that order.  Both parse in the code — the first
with an inherited Object.prototype member as month — so the comparator
subtracts a numeric key from a non-numeric one, giving NaN, which the
ES SortCompare rule maps to zero; a stable sort hence keeps the
insertion order, leaving 2024 constructor (whose month token is not in
the table) before 2024 vasaris without numeric keys in descending
order.  The locale comparison is never consulted on this input, so the
violation is independent of the host collation. -/
theorem c3_counterexample :
    ((sortGroups cpCmp (buildGroups "u" [cxIssue])).map
        FvGroup.fixVersion = ["2024 constructor", "2024 vasaris"]) ∧
    ¬ (sortGroups cpCmp (buildGroups "u" [cxIssue])).Pairwise
        (claimOrder cpCmp) := by
  have hs : sortGroups cpCmp (buildGroups "u" [cxIssue]) =
      [⟨"2024 constructor", some false, [⟨"A-1", "s", "u/browse/A-1"⟩]⟩,
       ⟨"2024 vasaris", some false, [⟨"A-1", "s", "u/browse/A-1"⟩]⟩] := by
    decide
  constructor
  · rw [hs]
    rfl
  · intro hpw
    rw [hs] at hpw
    have h1 := (List.pairwise_cons.mp hpw).1 _ (List.mem_cons_self _ _)
    have h2 : ∃ ka kb,
        monthKey ⟨⟨2024, 0⟩, .protoVal⟩ = some ka ∧
        monthKey ⟨⟨2024, 0⟩, .num 2⟩ = some kb ∧
        kb.toRat ≤ ka.toRat := h1
    rcases h2 with ⟨ka, kb, hka, _, _⟩
    exact Option.noConfusion hka

/-- C3 (amended): in every successful grouped-issues response, under
the host locale comparison — required by ECMA-402 to be a consistent,
in particular total and transitive, comparison — and provided every
group of the response has a junk-free name (its month, if it parses,
came from the table proper, so every sort key is numeric), parseable
groups appear in descending month-key order, no unparseable group
precedes a parseable one, and unparseable groups are mutually
nondecreasing under the locale comparison. -/
theorem c3_group_order (lc : List Char → List Char → Int)
    (hto : ∀ x y, lc x y ≤ 0 ∨ lc y x ≤ 0)
    (htr : ∀ x y z, lc x y ≤ 0 → lc y z ≤ 0 → lc x z ≤ 0)
    (baseUrl : String) (resps : Nat → FetchResult)
    (total : Nat) (groups : List FvGroup)
    (h : GETissues lc baseUrl resps = .ok total groups)
    (hj : ∀ g ∈ groups, junkFree g.fixVersion = true) :
    groups.Pairwise (claimOrder lc) := by
  unfold GETissues at h
  rcases hro : runAgg resps with ⟨o, c⟩
  rw [hro] at h
  cases o with
  | ok issues =>
      simp only [] at h
      cases h
      refine sortGroups_pairwise lc hto htr _ ?_
      intro g hg
      exact hj g ((List.perm_insertionSort (groupLe lc)
        (buildGroups baseUrl issues)).mem_iff.mpr hg)
  | httpError s b => simp at h

/-- C3 witness (spec scenario 4, sorting half): under the code-point
comparison as locale comparison, a response grouping one record under
2024 Sausis and 2024 vasaris sorts vasaris (key 202402) before Sausis
(key 202401). -/
theorem c3_group_order_witness :
    List.Pairwise (claimOrder cpCmp)
      [⟨"2024 vasaris", some false, [⟨"A-1", "s", "u/browse/A-1"⟩]⟩,
       ⟨"2024 Sausis", some false, [⟨"A-1", "s", "u/browse/A-1"⟩]⟩] := by
  refine c3_group_order cpCmp cpCmp_total cpCmp_trans "u"
    (fun _ => .ok ⟨[⟨"A-1", some ⟨some "s",
        some [⟨some "2024 Sausis", some false⟩,
              ⟨some "2024 vasaris", some false⟩]⟩⟩], none, some true⟩)
    1 _ ?_ ?_
  · decide
  · decide

/-! ## C7: per-record deduplication -/

/-- Inserting a membership under the very name queried appends exactly
that one entry to the issue list of the group. -/
theorem issuesOf_addMembership_same (gm : List FvGroup) (nm : String)
    (rel : Option Bool) (iss : TrimmedIssue) :
    issuesOf nm (addMembership gm nm rel iss) = issuesOf nm gm ++ [iss] := by
  induction gm with
  | nil => simp [addMembership, issuesOf]
  | cons g gs ih =>
      by_cases hg : g.fixVersion = nm
      · simp [addMembership, hg, issuesOf]
      · simp only [addMembership, if_neg hg]
        simp only [issuesOf, List.find?_cons]
        rw [show (decide (g.fixVersion = nm)) = false by
          simpa using hg]
        exact ih

/-- Inserting a membership under a different name leaves the queried
issue list unchanged. -/
theorem issuesOf_addMembership_other (gm : List FvGroup) (nm n : String)
    (hne : n ≠ nm) (rel : Option Bool) (iss : TrimmedIssue) :
    issuesOf nm (addMembership gm n rel iss) = issuesOf nm gm := by
  induction gm with
  | nil => simp [addMembership, issuesOf, List.find?_cons,
      show (decide (n = nm)) = false by simpa using hne]
  | cons g gs ih =>
      by_cases hg : g.fixVersion = n
      · have hgnm : (decide (g.fixVersion = nm)) = false := by
          simp [hg, hne]
        simp [addMembership, if_pos hg, issuesOf, List.find?_cons, hgnm]
      · simp only [addMembership, if_neg hg]
        simp only [issuesOf, List.find?_cons]
        cases hd : decide (g.fixVersion = nm) with
        | true => rfl
        | false => exact ih

/-- Once the queried name is in the seen set, the rest of the record's
fix versions never touch its issue list. -/
theorem processFVs_seen (iss : TrimmedIssue) (nm : String) :
    ∀ fvs seen gm, nm ∈ seen →
      issuesOf nm (processFVs iss seen gm fvs) = issuesOf nm gm := by
  intro fvs
  induction fvs with
  | nil => intro seen gm _; rfl
  | cons fv rest ih =>
      intro seen gm hseen
      cases hn : fv.name with
      | none => simp only [processFVs, hn]; exact ih seen gm hseen
      | some n =>
          by_cases hne : n = ""
          · simp only [processFVs, hn, if_pos hne]; exact ih seen gm hseen
          · by_cases hsn : n ∈ seen
            · simp only [processFVs, hn, if_neg hne, if_pos hsn]
              exact ih seen gm hseen
            · have hnnm : n ≠ nm := fun he => hsn (he ▸ hseen)
              simp only [processFVs, hn, if_neg hne, if_neg hsn]
              rw [ih (n :: seen) _ (List.mem_cons_of_mem n hseen)]
              exact issuesOf_addMembership_other gm nm n hnnm fv.released iss

/-- A record whose truthy names include the queried name and whose seen
set does not yet contain it contributes exactly one membership entry to
that group. -/
theorem processFVs_new (iss : TrimmedIssue) (nm : String) :
    ∀ fvs seen gm, nm ∉ seen → nm ∈ truthyNamesFVs fvs →
      issuesOf nm (processFVs iss seen gm fvs) =
        issuesOf nm gm ++ [iss] := by
  intro fvs
  induction fvs with
  | nil => intro seen gm _ hmem; simp [truthyNamesFVs] at hmem
  | cons fv rest ih =>
      intro seen gm hseen hmem
      cases hn : fv.name with
      | none =>
          simp only [processFVs, hn]
          refine ih seen gm hseen ?_
          simpa [truthyNamesFVs, hn] using hmem
      | some n =>
          by_cases hne : n = ""
          · simp only [processFVs, hn, if_pos hne]
            refine ih seen gm hseen ?_
            simpa [truthyNamesFVs, hn, hne] using hmem
          · by_cases hsn : n ∈ seen
            · have hnnm : n ≠ nm := fun he => hseen (he ▸ hsn)
              simp only [processFVs, hn, if_neg hne, if_pos hsn]
              refine ih seen gm hseen ?_
              have hmem2 : nm = n ∨ nm ∈ truthyNamesFVs rest := by
                simpa [truthyNamesFVs, hn, if_neg hne] using hmem
              rcases hmem2 with he | hm
              · exact absurd he.symm hnnm
              · exact hm
            · by_cases hnm : n = nm
              · subst hnm
                simp only [processFVs, hn, if_neg hne, if_neg hsn]
                rw [processFVs_seen iss n rest (n :: seen) _
                  (List.mem_cons_self n seen)]
                exact issuesOf_addMembership_same gm n fv.released iss
              · simp only [processFVs, hn, if_neg hne, if_neg hsn]
                have hmem2 : nm ∈ truthyNamesFVs rest := by
                  have : nm = n ∨ nm ∈ truthyNamesFVs rest := by
                    simpa [truthyNamesFVs, hn, if_neg hne] using hmem
                  rcases this with he | hm
                  · exact absurd he.symm hnm
                  · exact hm
                rw [ih (n :: seen) (addMembership gm n fv.released iss)
                  (by
                    intro hc
                    rcases List.mem_cons.mp hc with he | hm
                    · exact hnm he.symm
                    · exact hseen hm)
                  hmem2]
                rw [issuesOf_addMembership_other gm nm n hnm fv.released iss]

/-- C7: a record whose release list names the same release name more
than once contributes exactly one membership entry for that record to
that release's group. -/
theorem c7_dedup_membership (baseUrl : String) (gm : List FvGroup)
    (r : RawIssue) (nm : String)
    (hdup : 2 ≤ List.count nm (truthyNames r)) :
    issuesOf nm (processIssue baseUrl gm r) =
      issuesOf nm gm ++ [trimmedOf baseUrl r] := by
  have hmem : nm ∈ truthyNames r := by
    by_contra hc
    rw [List.count_eq_zero_of_not_mem hc] at hdup
    omega
  exact processFVs_new (trimmedOf baseUrl r) nm _ [] gm (by simp) hmem

/-- C7 witness (spec scenario 6): a record listing 2024 Sausis twice
yields exactly one entry in that release's group. -/
theorem c7_dedup_membership_witness :
    issuesOf "2024 Sausis" (processIssue "u" []
        ⟨"K-7", some ⟨some "s",
          some [⟨some "2024 Sausis", some false⟩,
                ⟨some "2024 Sausis", some false⟩]⟩⟩) =
      [⟨"K-7", "s", "u/browse/K-7"⟩] := by
  have h := c7_dedup_membership "u" []
    ⟨"K-7", some ⟨some "s",
      some [⟨some "2024 Sausis", some false⟩,
            ⟨some "2024 Sausis", some false⟩]⟩⟩ "2024 Sausis" (by decide)
  rw [h]
  decide

/-- C8 witness: a 500 with body boom on the second request after one
continuing page is surfaced verbatim in the 502 envelope. -/
theorem c8_upstream_failure_witness :
    runAgg (fun i =>
        if i = 0 then .ok ⟨[⟨"A-1", none⟩], some "t", some false⟩
        else .err 500 "boom") = (.httpError 500 "boom", 2) ∧
    GETissues cpCmp "u" (fun i =>
        if i = 0 then .ok ⟨[⟨"A-1", none⟩], some "t", some false⟩
        else .err 500 "boom") =
      .error 502 "Jira request failed" (some 500) (some "boom") := by
  have h := c8_upstream_failure cpCmp "u" (fun i =>
      if i = 0 then .ok ⟨[⟨"A-1", none⟩], some "t", some false⟩
      else .err 500 "boom") 1 500 "boom" (by decide)
    (fun j hj => by interval_cases j; decide) (by decide)
  exact ⟨h.1, h.2.1⟩

/-! ## C4: attachment placeholder resolution

The totality argument analyses the two substitution scans.  The key
facts: the opener pattern contains no close-bracket and starts with its
only open-bracket; every substituted block starts with an open-bracket,
ends with a close-bracket, and (given the filename proviso) contains no
occurrence of the opener; and a scan keeps any character at which no
match starts.  Together these prevent any placeholder token from
surviving or arising across block boundaries. -/

/-- The boolean initial-segment test agrees with `leadsWith`. -/
theorem isPre_iff (p s : List Char) : isPre p s = true ↔ leadsWith p s := by
  induction p generalizing s with
  | nil => exact iff_of_true (by simp [isPre]) ⟨s, rfl⟩
  | cons a p ih =>
      cases s with
      | nil =>
          simp only [isPre, leadsWith]
          refine iff_of_false (by simp) ?_
          rintro ⟨t, ht⟩
          exact List.noConfusion ht
      | cons b s2 =>
          simp only [isPre, Bool.and_eq_true, decide_eq_true_eq]
          constructor
          · rintro ⟨hab, h2⟩
            obtain ⟨t, ht⟩ := (ih s2).mp h2
            exact ⟨t, by rw [List.cons_append, ← hab, ← ht]⟩
          · rintro ⟨t, ht⟩
            rw [List.cons_append] at ht
            injection ht with h1 h2
            exact ⟨h1.symm, (ih s2).mpr ⟨t, h2⟩⟩

/-- A leading pattern is no longer than the string. -/
theorem leadsWith_length {p s : List Char} (h : leadsWith p s) :
    p.length ≤ s.length := by
  obtain ⟨t, ht⟩ := h
  subst ht
  simp

/-- Leading patterns decompose along cons. -/
theorem leadsWith_cons_iff {a : Char} {p : List Char} {b : Char}
    {s : List Char} :
    leadsWith (a :: p) (b :: s) ↔ a = b ∧ leadsWith p s := by
  constructor
  · rintro ⟨t, ht⟩
    rw [List.cons_append] at ht
    injection ht with h1 h2
    exact ⟨h1.symm, ⟨t, h2⟩⟩
  · rintro ⟨hab, t, ht⟩
    exact ⟨t, by rw [List.cons_append, hab, ht]⟩

/-- A nonempty leading pattern fixes the head. -/
theorem leadsWith_head {a : Char} {p s : List Char}
    (h : leadsWith (a :: p) s) : ∃ s2, s = a :: s2 ∧ leadsWith p s2 := by
  obtain ⟨t, ht⟩ := h
  exact ⟨p ++ t, ht, ⟨t, rfl⟩⟩

/-- If a pattern leads an append and fits inside the left part, it
leads the left part. -/
theorem leadsWith_of_le_left {p x b : List Char}
    (h : leadsWith p (x ++ b)) (hle : p.length ≤ x.length) :
    leadsWith p x := by
  obtain ⟨t, ht⟩ := h
  have hx : x.take p.length ++ (x.drop p.length ++ b) = p ++ t := by
    rw [← List.append_assoc, List.take_append_drop]
    exact ht
  have hlen : (x.take p.length).length = p.length := by
    simp [Nat.min_eq_left hle]
  have h1 : x.take p.length = p := (List.append_inj hx hlen).1
  refine ⟨x.drop p.length, ?_⟩
  conv_lhs => rw [← List.take_append_drop p.length x]
  rw [h1]

/-- If a pattern leads an append and exceeds the left part, the left
part is an initial segment of the pattern and the rest of the pattern
leads the right part. -/
theorem leadsWith_split {p x b : List Char}
    (h : leadsWith p (x ++ b)) (hgt : x.length ≤ p.length) :
    x = p.take x.length ∧ leadsWith (p.drop x.length) b := by
  obtain ⟨t, ht⟩ := h
  have hx : x ++ b = p.take x.length ++ (p.drop x.length ++ t) := by
    rw [← List.append_assoc, List.take_append_drop]
    exact ht
  have hlen : x.length = (p.take x.length).length := by
    simp [Nat.min_eq_left hgt]
  obtain ⟨h1, h2⟩ := List.append_inj hx hlen
  exact ⟨h1, ⟨t, h2⟩⟩

/-- A block occurrence is no longer than the string. -/
theorem occurs_length {p s : List Char} (h : occurs p s) :
    p.length ≤ s.length := by
  obtain ⟨a, b, hab⟩ := h
  subst hab
  simp
  omega

/-- A leading pattern occurs. -/
theorem occurs_of_leadsWith {p s : List Char} (h : leadsWith p s) :
    occurs p s := by
  obtain ⟨t, ht⟩ := h
  exact ⟨[], t, by simpa using ht⟩

/-- An occurrence extends over a front element. -/
theorem occurs_cons_of {p s : List Char} (c : Char) (h : occurs p s) :
    occurs p (c :: s) := by
  obtain ⟨a, b, hab⟩ := h
  exact ⟨c :: a, b, by rw [hab]; rfl⟩

/-- An occurrence in a cons either starts at the head or sits in the
tail. -/
theorem occurs_cons_elim {p : List Char} {c : Char} {s : List Char}
    (h : occurs p (c :: s)) : leadsWith p (c :: s) ∨ occurs p s := by
  obtain ⟨a, b, hab⟩ := h
  cases a with
  | nil => exact Or.inl ⟨b, by simpa using hab⟩
  | cons a0 a2 =>
      rw [List.cons_append, List.cons_append] at hab
      injection hab with _ h2
      exact Or.inr ⟨a2, b, h2⟩

/-- Decomposition of an occurrence in an append: fully left, fully
right, or straddling with a split of the pattern. -/
theorem occurs_append_elim {p x b : List Char} (h : occurs p (x ++ b)) :
    occurs p x ∨ occurs p b ∨
      ∃ k, 0 < k ∧ k < p.length ∧ (∃ t, x = t ++ p.take k) ∧
        leadsWith (p.drop k) b := by
  induction x with
  | nil => exact Or.inr (Or.inl (by simpa using h))
  | cons c x2 ih =>
      rw [List.cons_append] at h
      rcases occurs_cons_elim h with hl | ho
      · by_cases hle : p.length ≤ (c :: x2).length
        · have := leadsWith_of_le_left (x := c :: x2) (by
            obtain ⟨t, ht⟩ := hl
            exact ⟨t, ht⟩) hle
          exact Or.inl (occurs_of_leadsWith this)
        · push_neg at hle
          have hsplit := leadsWith_split (x := c :: x2) (b := b) (by
            obtain ⟨t, ht⟩ := hl
            exact ⟨t, ht⟩)
            (le_of_lt hle)
          refine Or.inr (Or.inr ⟨(c :: x2).length, by simp, hle, ⟨[],
            by simpa using hsplit.1⟩, hsplit.2⟩)
      · rcases ih ho with h1 | h1 | ⟨k, hk0, hkp, ⟨t, ht⟩, hlw⟩
        · exact Or.inl (occurs_cons_of c h1)
        · exact Or.inr (Or.inl h1)
        · exact Or.inr (Or.inr ⟨k, hk0, hkp, ⟨c :: t,
            by rw [List.cons_append, ← ht]⟩, hlw⟩)

/-- Length of the opener pattern. -/
theorem PREpat_length : PREpat.length = 15 := by decide

/-- The opener contains no close-bracket. -/
theorem PREpat_no_rbracket : ']' ∉ PREpat := by decide

/-- A token start is led by the opener. -/
theorem TokStart_leadsWith {s : List Char} (h : TokStart s) :
    leadsWith PREpat s := by
  obtain ⟨id, b, hs, _, _⟩ := h
  exact ⟨id ++ ']' :: b, by rw [hs, List.append_assoc]⟩

/-- A token is at least seventeen characters long. -/
theorem TokStart_length {s : List Char} (h : TokStart s) :
    17 ≤ s.length := by
  obtain ⟨id, b, hs, hid, _⟩ := h
  subst hs
  have h1 : 1 ≤ id.length := List.length_pos.mpr hid
  have h2 : PREpat.length = 15 := PREpat_length
  simp [List.length_append]
  omega

/-- The empty string carries no token. -/
theorem hasTok_nil : ¬ hasTok [] := by
  rintro ⟨u, v, he, hts⟩
  have h1 := TokStart_length hts
  have h2 := congrArg List.length he
  simp at h2
  omega

/-- A token at the front is a token. -/
theorem hasTok_of_TokStart {s : List Char} (h : TokStart s) : hasTok s :=
  ⟨[], s, rfl, h⟩

/-- Tokens survive prepending. -/
theorem hasTok_extend {x y : List Char} (h : hasTok y) : hasTok (x ++ y) := by
  obtain ⟨u, v, he, hts⟩ := h
  exact ⟨x ++ u, v, by rw [he, List.append_assoc], hts⟩

/-- A token in a cons starts at the head or sits in the tail. -/
theorem hasTok_cons_elim {c : Char} {s : List Char} (h : hasTok (c :: s)) :
    TokStart (c :: s) ∨ hasTok s := by
  obtain ⟨u, v, he, hts⟩ := h
  cases u with
  | nil =>
      left
      have hv : v = c :: s := by simpa using he.symm
      rwa [hv] at hts
  | cons u0 u2 =>
      right
      rw [List.cons_append] at he
      injection he with _ h2
      exact ⟨u2, v, h2, hts⟩

/-- A token in an append is a token of the right part or starts inside
a nonempty suffix of the left part. -/
theorem hasTok_append_elim {x y : List Char} (h : hasTok (x ++ y)) :
    hasTok y ∨ ∃ x2 t, x = t ++ x2 ∧ x2 ≠ [] ∧ TokStart (x2 ++ y) := by
  obtain ⟨u, v, he, hts⟩ := h
  by_cases hle : x.length ≤ u.length
  · left
    obtain ⟨u2, hu⟩ := leadsWith_of_le_left (p := x) (x := u) (b := v)
      ⟨y, he.symm⟩ hle
    have he2 : x ++ y = x ++ (u2 ++ v) := by
      rw [he, hu, List.append_assoc]
    exact ⟨u2, v, List.append_cancel_left he2, hts⟩
  · right
    push_neg at hle
    obtain ⟨x2, hx⟩ := leadsWith_of_le_left (p := u) (x := x) (b := y)
      ⟨v, he⟩ (le_of_lt hle)
    have hne : x2 ≠ [] := by
      intro h0
      rw [h0, List.append_nil] at hx
      subst hx
      omega
    have hv : x2 ++ y = v := by
      have h2 : u ++ (x2 ++ y) = u ++ v := by
        rw [← List.append_assoc, ← hx, he]
      exact List.append_cancel_left h2
    exact ⟨x2, u, hx, hne, hv ▸ hts⟩

/-- No token starts where the opener is followed directly by a
close-bracket (the id capture must be nonempty). -/
theorem not_TokStart_empty_id {r : List Char} :
    ¬ TokStart (PREpat ++ ']' :: r) := by
  rintro ⟨id, b, he, hid, hnb⟩
  rw [List.append_assoc] at he
  have h2 : (']' :: r : List Char) = id ++ ']' :: b :=
    List.append_cancel_left he
  cases id with
  | nil => exact hid rfl
  | cons i0 id2 =>
      rw [List.cons_append] at h2
      injection h2 with h3 _
      exact hnb (h3 ▸ List.mem_cons_self i0 id2)

/-- No token starts where the opener is never followed by a
close-bracket. -/
theorem not_TokStart_no_rbracket {tail : List Char} (h : ']' ∉ tail) :
    ¬ TokStart (PREpat ++ tail) := by
  rintro ⟨id, b, he, _, _⟩
  rw [List.append_assoc] at he
  have h2 : tail = id ++ ']' :: b := List.append_cancel_left he
  exact h (h2 ▸ List.mem_append_right id (List.mem_cons_self ']' b))

/-- `takeWhile` and `dropWhile` on a list that is an all-good block
followed by a failing element. -/
theorem takeWhile_dropWhile_exact {p : Char → Bool} :
    ∀ (id : List Char) (c : Char) (rest : List Char),
      (∀ x ∈ id, p x = true) → p c = false →
      (id ++ c :: rest).takeWhile p = id ∧
      (id ++ c :: rest).dropWhile p = c :: rest := by
  intro id
  induction id with
  | nil =>
      intro c rest _ hc
      simp [List.takeWhile, List.dropWhile, hc]
  | cons a id2 ih =>
      intro c rest hall hc
      have ha : p a = true := hall a (List.mem_cons_self a id2)
      have := ih c rest (fun x hx => hall x (List.mem_cons_of_mem a hx)) hc
      simp [List.takeWhile, List.dropWhile, ha, this.1, this.2]

/-- The head surviving a `dropWhile` fails the predicate. -/
theorem dropWhile_head_false {p : Char → Bool} :
    ∀ {l : List Char} {c : Char} {r : List Char},
      l.dropWhile p = c :: r → p c = false := by
  intro l
  induction l with
  | nil => intro c r h; exact absurd h (by simp [List.dropWhile])
  | cons a l2 ih =>
      intro c r h
      by_cases ha : p a = true
      · rw [List.dropWhile_cons_of_pos ha] at h
        exact ih h
      · rw [List.dropWhile_cons_of_neg ha] at h
        injection h with h1 _
        rw [← h1]
        exact Bool.not_eq_true _ ▸ ha

/-- When `dropWhile` exhausts the list, every element satisfies the
predicate. -/
theorem dropWhile_nil_all {p : Char → Bool} {l : List Char}
    (h : l.dropWhile p = []) : ∀ x ∈ l, p x = true := by
  intro x hx
  have h2 : l.takeWhile p = l := by
    have := List.takeWhile_append_dropWhile (p := p) (l := l)
    rwa [h, List.append_nil] at this
  exact List.mem_takeWhile_imp (h2.symm ▸ hx)

/-- The matcher succeeds on a well-formed token, capturing the id. -/
theorem tokAt_build (id rest : List Char) (hid : id ≠ [])
    (hnb : ']' ∉ id) :
    tokAt (PREpat ++ (id ++ ']' :: rest)) = some (id, rest) := by
  have hpre : isPre PREpat (PREpat ++ (id ++ ']' :: rest)) = true :=
    (isPre_iff _ _).mpr ⟨id ++ ']' :: rest, rfl⟩
  have hdrop : (PREpat ++ (id ++ ']' :: rest)).drop 15 = id ++ ']' :: rest := by
    rw [show (15 : Nat) = PREpat.length from PREpat_length.symm,
      List.drop_left]
  have hex := takeWhile_dropWhile_exact (p := fun c => decide (c ≠ ']'))
    id ']' rest
    (fun x hx => by
      simp only [decide_eq_true_eq]
      intro hx2
      exact hnb (hx2 ▸ hx))
    (by simp)
  simp only [tokAt, hpre, if_true, hdrop, hex.1, hex.2]
  simp [hid]

/-- The matcher succeeds only on a well-formed token. -/
theorem tokAt_some_elim {l id rest : List Char}
    (h : tokAt l = some (id, rest)) :
    l = PREpat ++ id ++ ']' :: rest ∧ id ≠ [] ∧ ']' ∉ id := by
  by_cases hpre : isPre PREpat l = true
  · obtain ⟨t, ht⟩ := (isPre_iff _ _).mp hpre
    subst ht
    have hdrop : (PREpat ++ t).drop 15 = t := by
      rw [show (15 : Nat) = PREpat.length from PREpat_length.symm,
        List.drop_left]
    simp only [tokAt, hpre, if_true, hdrop] at h
    cases hdw : t.dropWhile (fun c => decide (c ≠ ']')) with
    | nil =>
        simp only [hdw] at h
        exact absurd h (by simp)
    | cons c r2 =>
        simp only [hdw] at h
        by_cases hid0 : t.takeWhile (fun c => decide (c ≠ ']')) = []
        · rw [if_pos hid0] at h
          exact absurd h (by simp)
        · rw [if_neg hid0] at h
          injection h with h2
          injection h2 with h3 h4
          have hc : c = ']' := by
            have := dropWhile_head_false hdw
            simpa using this
          have ht2 : t = id ++ ']' :: rest := by
            have := List.takeWhile_append_dropWhile
              (p := fun c => decide (c ≠ ']')) (l := t)
            rw [hdw, h3, hc, h4] at this
            exact this.symm
          refine ⟨by rw [ht2, List.append_assoc], h3 ▸ hid0, ?_⟩
          intro hmem
          have := List.mem_takeWhile_imp (h3 ▸ hmem)
          simp at this
  · exact absurd h (by simp [tokAt, hpre])

/-- When the matcher fails, the position does not start with the
opener, or the id capture is empty, or no close-bracket follows. -/
theorem tokAt_none_cases {l : List Char} (h : tokAt l = none) :
    ¬ leadsWith PREpat l ∨ (∃ r, l = PREpat ++ ']' :: r) ∨
      (∃ tail, l = PREpat ++ tail ∧ ']' ∉ tail) := by
  by_cases hpre : isPre PREpat l = true
  · obtain ⟨t, ht⟩ := (isPre_iff _ _).mp hpre
    subst ht
    have hdrop : (PREpat ++ t).drop 15 = t := by
      rw [show (15 : Nat) = PREpat.length from PREpat_length.symm,
        List.drop_left]
    simp only [tokAt, hpre, if_true, hdrop] at h
    cases hdw : t.dropWhile (fun c => decide (c ≠ ']')) with
    | nil =>
        refine Or.inr (Or.inr ⟨t, rfl, ?_⟩)
        intro hmem
        have := dropWhile_nil_all hdw ']' hmem
        simp at this
    | cons c r2 =>
        simp only [hdw] at h
        by_cases hid0 : t.takeWhile (fun c => decide (c ≠ ']')) = []
        · have hc : c = ']' := by
            have := dropWhile_head_false hdw
            simpa using this
          have ht2 : t = ']' :: r2 := by
            have := List.takeWhile_append_dropWhile
              (p := fun c => decide (c ≠ ']')) (l := t)
            rw [hdw, hid0, hc] at this
            simpa using this.symm
          exact Or.inr (Or.inl ⟨r2, by rw [ht2]⟩)
        · rw [if_neg hid0] at h
          exact absurd h (by simp)
  · left
    intro hl
    exact hpre ((isPre_iff _ _).mpr hl)

/-- The matcher never fires at a character other than an open
bracket. -/
theorem tokAt_none_of_head {c : Char} {l : List Char} (hc : c ≠ '[') :
    tokAt (c :: l) = none := by
  have hfalse : isPre PREpat (c :: l) = false := by
    by_contra hb
    rw [Bool.not_eq_false] at hb
    obtain ⟨t, ht⟩ := (isPre_iff _ _).mp hb
    have ht2 : c :: l = '[' :: ("ATTACHMENT_ID:".data ++ t) := ht
    injection ht2 with h1 _
    exact hc h1
  simp [tokAt, hfalse]

/-- A token crossing out of a block that ends in a close-bracket and
contains no opener must lie in the remainder. -/
theorem block_absorb {blk r : List Char}
    (hlast : blk.getLast? = some ']')
    (hocc : ¬ occurs PREpat blk) (h : hasTok (blk ++ r)) : hasTok r := by
  rcases hasTok_append_elim h with h1 | ⟨x2, t, hx, hx2ne, hts⟩
  · exact h1
  · exfalso
    have hlw := TokStart_leadsWith hts
    by_cases hle : x2.length ≤ PREpat.length
    · have hsplit := leadsWith_split (p := PREpat) (x := x2) (b := r)
        hlw hle
      have hxlast : x2.getLast? = some ']' := by
        rw [hx, List.getLast?_append_of_ne_nil t hx2ne] at hlast
        exact hlast
      obtain ⟨h9, h10⟩ := List.mem_getLast?_eq_getLast
        (show ']' ∈ x2.getLast? from hxlast)
      have hm1 : ']' ∈ x2 := h10 ▸ List.getLast_mem h9
      have hm2 : ']' ∈ PREpat.take x2.length := hsplit.1 ▸ hm1
      exact PREpat_no_rbracket (List.take_subset _ PREpat hm2)
    · push_neg at hle
      obtain ⟨t2, ht2⟩ := leadsWith_of_le_left (p := PREpat) (x := x2)
        (b := r) hlw (le_of_lt hle)
      exact hocc ⟨t, t2, by simp [hx, ht2, List.append_assoc]⟩

/-- The substituted label is a fixed head (file or image) followed by
the filename and a close-bracket. -/
theorem label_shape (a : JAttachment) :
    ∃ w, (w = "[File: ".data ∨ w = "[Image: ".data) ∧
      placeholderLabelForAttachment a =
        w ++ ((a.filename.getD "file").data ++ [']']) := by
  unfold placeholderLabelForAttachment
  by_cases him :
      isPre "image/".data (jsToLowerL (a.mimeType.getD "").data) = true
  · exact ⟨"[Image: ".data, Or.inr rfl,
      by rw [if_pos him, List.append_assoc]⟩
  · exact ⟨"[File: ".data, Or.inl rfl,
      by rw [if_neg him, List.append_assoc]⟩

/-- A label built from an opener-free filename contains no opener. -/
theorem occurs_PRE_label {w fn : List Char}
    (hw : w = "[File: ".data ∨ w = "[Image: ".data)
    (hfn : ¬ occurs PREpat fn) :
    ¬ occurs PREpat (w ++ (fn ++ [']'])) := by
  intro h
  rcases occurs_append_elim h with h1 | h1 | ⟨k, hk0, hkp, ⟨t, ht⟩, hlw⟩
  · have hl := occurs_length h1
    rw [PREpat_length] at hl
    rcases hw with hw | hw <;> subst hw
    · have : ("[File: ".data).length = 7 := by decide
      omega
    · have : ("[Image: ".data).length = 8 := by decide
      omega
  · rcases occurs_append_elim h1 with h2 | h2 | ⟨k, hk0, hkp, _, hlw2⟩
    · exact hfn h2
    · have hl := occurs_length h2
      rw [PREpat_length] at hl
      simp at hl
    · obtain ⟨t2, ht2⟩ := hlw2
      have hlen := congrArg List.length ht2
      rw [PREpat_length] at hkp
      simp [PREpat_length] at hlen
      have hk14 : k = 14 := by omega
      subst hk14
      have hdr : PREpat.drop 14 = [':'] := by decide
      rw [hdr] at ht2
      injection ht2 with hc _
      exact absurd hc (by decide)
  · rw [PREpat_length] at hkp
    have htk_ne : PREpat.take k ≠ [] := by
      intro h0
      have := congrArg List.length h0
      rw [List.length_take, PREpat_length] at this
      simp [Nat.min_eq_left (le_of_lt hkp)] at this
      omega
    have hwlast : w.getLast? = (PREpat.take k).getLast? := by
      rw [ht, List.getLast?_append_of_ne_nil t htk_ne]
    have hwl : w.getLast? = some ' ' := by
      rcases hw with hw | hw <;> subst hw <;> decide
    rw [hwl] at hwlast
    obtain ⟨h9, h10⟩ := List.mem_getLast?_eq_getLast
      (show ' ' ∈ (PREpat.take k).getLast? from hwlast.symm)
    have hm1 : ' ' ∈ PREpat.take k := h10 ▸ List.getLast_mem h9
    have hm2 : ' ' ∈ PREpat := List.take_subset k PREpat hm1
    exact absurd hm2 (by decide)

/-- Under the filename proviso every substituted block is nonempty,
ends with a close-bracket, starts with an open-bracket, and contains no
opener. -/
theorem substFor_spec (att : List Char → Option JAttachment)
    (hatt : ∀ id a, att id = some a →
      ¬ occurs PREpat (a.filename.getD "file").data) (id : List Char) :
    substFor att id ≠ [] ∧ (substFor att id).getLast? = some ']' ∧
      ¬ occurs PREpat (substFor att id) ∧
      leadsWith ['['] (substFor att id) := by
  cases hai : att id with
  | none =>
      simp only [substFor, hai]
      refine ⟨by decide, by decide, ?_, ⟨"Attachment]".data, rfl⟩⟩
      intro h
      have hl := occurs_length h
      rw [PREpat_length] at hl
      have : BARSUB.length = 12 := by decide
      omega
  | some a =>
      simp only [substFor, hai]
      obtain ⟨w, hw, hsh⟩ := label_shape a
      rw [hsh]
      refine ⟨?_, ?_, occurs_PRE_label hw (hatt id a hai), ?_⟩
      · rcases hw with hw | hw <;> subst hw <;> simp
      · have hr_ne : (a.filename.getD "file").data ++ [']'] ≠ [] := by
          simp
        rw [List.getLast?_append_of_ne_nil w hr_ne,
          List.getLast?_concat]
      · rcases hw with hw | hw <;> subst hw
        · exact ⟨"File: ".data ++ ((a.filename.getD "file").data ++ [']']),
            rfl⟩
        · exact ⟨"Image: ".data ++ ((a.filename.getD "file").data ++ [']']),
            rfl⟩

/-- A pattern free of open-brackets that does not lead the input does
not lead the output of the id scan (matches only fire at an open
bracket, and every substituted block starts with one). -/
theorem leads_not_replaceIdsF (att : List Char → Option JAttachment)
    (hatt : ∀ id a, att id = some a →
      ¬ occurs PREpat (a.filename.getD "file").data) :
    ∀ fuel p cs, (∀ x ∈ p, x ≠ '[') → ¬ leadsWith p cs →
      ¬ leadsWith p (replaceIdsF att fuel cs) := by
  intro fuel
  induction fuel with
  | zero => intro p cs _ h; exact h
  | succ f ih =>
      intro p cs hp hn
      cases cs with
      | nil => exact hn
      | cons c cs2 =>
          cases p with
          | nil => exact absurd ⟨c :: cs2, rfl⟩ hn
          | cons a p2 =>
              cases htok : tokAt (c :: cs2) with
              | some pr =>
                  obtain ⟨id, rest⟩ := pr
                  rw [show replaceIdsF att (f + 1) (c :: cs2) =
                      substFor att id ++ replaceIdsF att f rest from by
                    simp [replaceIdsF, htok]]
                  intro hlw
                  obtain ⟨s2, hs2, _⟩ := leadsWith_head hlw
                  obtain ⟨_, _, _, ⟨tb, htb⟩⟩ := substFor_spec att hatt id
                  rw [htb] at hs2
                  have hs3 : '[' :: (tb ++ replaceIdsF att f rest) =
                      a :: s2 := hs2
                  injection hs3 with h1 _
                  exact hp a (List.mem_cons_self a p2) h1.symm
              | none =>
                  rw [show replaceIdsF att (f + 1) (c :: cs2) =
                      c :: replaceIdsF att f cs2 from by
                    simp [replaceIdsF, htok]]
                  intro hlw
                  rcases leadsWith_cons_iff.mp hlw with ⟨hac, hlw2⟩
                  have hn2 : ¬ leadsWith p2 cs2 := fun hl2 =>
                    hn (leadsWith_cons_iff.mpr ⟨hac, hl2⟩)
                  exact ih p2 cs2
                    (fun x hx => hp x (List.mem_cons_of_mem a hx)) hn2 hlw2

/-- The id scan keeps a run of characters at which no match can
start. -/
theorem replaceIdsF_keep (att : List Char → Option JAttachment) :
    ∀ u fuel v, (∀ x ∈ u, x ≠ '[') →
      replaceIdsF att (u.length + fuel) (u ++ v) =
        u ++ replaceIdsF att fuel v := by
  intro u
  induction u with
  | nil => intro fuel v _; simp
  | cons a u2 ih =>
      intro fuel v hu
      have htok : tokAt (a :: (u2 ++ v)) = none :=
        tokAt_none_of_head (hu a (List.mem_cons_self a u2))
      have hlen : (a :: u2).length + fuel = (u2.length + fuel) + 1 := by
        simp
        omega
      rw [hlen]
      rw [show replaceIdsF att ((u2.length + fuel) + 1) ((a :: u2) ++ v) =
          a :: replaceIdsF att (u2.length + fuel) (u2 ++ v) from by
        simp [replaceIdsF, htok]]
      rw [ih fuel v (fun x hx => hu x (List.mem_cons_of_mem a hx))]
      rfl

/-- A string without close-brackets passes the id scan unchanged. -/
theorem replaceIdsF_no_rbracket (att : List Char → Option JAttachment) :
    ∀ fuel v, ']' ∉ v → replaceIdsF att fuel v = v := by
  intro fuel
  induction fuel with
  | zero => intro v _; rfl
  | succ f ih =>
      intro v hv
      cases v with
      | nil => rfl
      | cons c cs =>
          cases htok : tokAt (c :: cs) with
          | some pr =>
              obtain ⟨id, rest⟩ := pr
              obtain ⟨hdec, _, _⟩ := tokAt_some_elim htok
              exfalso
              apply hv
              rw [hdec, List.append_assoc]
              exact List.mem_append_right PREpat
                (List.mem_append_right id (List.mem_cons_self ']' rest))
          | none =>
              rw [show replaceIdsF att (f + 1) (c :: cs) =
                  c :: replaceIdsF att f cs from by simp [replaceIdsF, htok]]
              rw [ih cs (fun h => hv (List.mem_cons_of_mem c h))]

/-- Main lemma for the first pass: with enough fuel and the filename
proviso, the output of the id scan contains no placeholder token. -/
theorem replaceIdsF_no_tok (att : List Char → Option JAttachment)
    (hatt : ∀ id a, att id = some a →
      ¬ occurs PREpat (a.filename.getD "file").data) :
    ∀ fuel l, l.length ≤ fuel → ¬ hasTok (replaceIdsF att fuel l) := by
  intro fuel
  induction fuel with
  | zero =>
      intro l hl
      have h0 : l = [] := List.eq_nil_of_length_eq_zero (Nat.le_zero.mp hl)
      subst h0
      exact hasTok_nil
  | succ f ih =>
      intro l hl
      cases l with
      | nil => exact hasTok_nil
      | cons c cs =>
          cases htok : tokAt (c :: cs) with
          | some pr =>
              obtain ⟨id, rest⟩ := pr
              obtain ⟨hdec, hidne, hidnb⟩ := tokAt_some_elim htok
              rw [show replaceIdsF att (f + 1) (c :: cs) =
                  substFor att id ++ replaceIdsF att f rest from by
                simp [replaceIdsF, htok]]
              intro h
              obtain ⟨_, hb2, hb3, _⟩ := substFor_spec att hatt id
              have hrl : rest.length ≤ f := by
                have hlen := congrArg List.length hdec
                simp [List.length_append, PREpat_length] at hlen
                simp at hl
                omega
              exact ih rest hrl (block_absorb hb2 hb3 h)
          | none =>
              rw [show replaceIdsF att (f + 1) (c :: cs) =
                  c :: replaceIdsF att f cs from by simp [replaceIdsF, htok]]
              intro h
              have hcl : cs.length ≤ f := by
                simp at hl
                omega
              rcases hasTok_cons_elim h with hts | h2
              · rcases tokAt_none_cases htok with hnl | ⟨r2, hr⟩ |
                  ⟨tail, htl, hnb⟩
                · have hlw := TokStart_leadsWith hts
                  have hPp : PREpat = '[' :: "ATTACHMENT_ID:".data := rfl
                  rw [hPp] at hlw
                  rcases leadsWith_cons_iff.mp hlw with ⟨hcb, hlw2⟩
                  have hnl2 : ¬ leadsWith "ATTACHMENT_ID:".data cs := by
                    intro hl2
                    exact hnl (by
                      rw [hPp]
                      exact leadsWith_cons_iff.mpr ⟨hcb, hl2⟩)
                  exact leads_not_replaceIdsF att hatt f
                    "ATTACHMENT_ID:".data cs (by decide) hnl2 hlw2
                · have hr2 : c :: cs =
                      '[' :: ("ATTACHMENT_ID:".data ++ ']' :: r2) := hr
                  injection hr2 with hc1 hc2
                  have hcs : cs = ("ATTACHMENT_ID:".data ++ [']']) ++ r2 := by
                    rw [hc2, List.append_assoc]
                    rfl
                  have hcsl := congrArg List.length hcs
                  simp at hcsl
                  have hf15 : f = 15 + (f - 15) := by omega
                  have hkeep := replaceIdsF_keep att
                    ("ATTACHMENT_ID:".data ++ [']']) (f - 15) r2 (by decide)
                  have hul : ("ATTACHMENT_ID:".data ++ [']'] :
                      List Char).length = 15 := by decide
                  rw [hul] at hkeep
                  have hout : replaceIdsF att f cs =
                      ("ATTACHMENT_ID:".data ++ [']']) ++
                        replaceIdsF att (f - 15) r2 := by
                    conv_lhs => rw [hcs, hf15]
                    exact hkeep
                  rw [hout] at hts
                  have heq : c :: ((("ATTACHMENT_ID:".data ++ [']'])) ++
                      replaceIdsF att (f - 15) r2) =
                      PREpat ++ ']' :: replaceIdsF att (f - 15) r2 := by
                    rw [hc1]
                    simp [PREpat, List.append_assoc]
                  rw [heq] at hts
                  exact not_TokStart_empty_id hts
                · have htl2 : c :: cs =
                      '[' :: ("ATTACHMENT_ID:".data ++ tail) := htl
                  injection htl2 with hc1 hc2
                  have hnocs : ']' ∉ cs := by
                    rw [hc2]
                    intro hm
                    rcases List.mem_append.mp hm with hm2 | hm2
                    · exact absurd hm2 (by decide)
                    · exact hnb hm2
                  rw [replaceIdsF_no_rbracket att f cs hnocs] at hts
                  rw [htl] at hts
                  exact not_TokStart_no_rbracket hnb hts
              · exact ih cs hcl h2

/-- Length of the bare token. -/
theorem BAREpat_length : BAREpat.length = 12 := by decide

/-- The bare scan never fires at a character other than an open
bracket. -/
theorem bare_isPre_false_of_head {c : Char} {l : List Char}
    (hc : c ≠ '[') : isPre BAREpat (c :: l) = false := by
  by_contra hb
  rw [Bool.not_eq_false] at hb
  obtain ⟨t, ht⟩ := (isPre_iff _ _).mp hb
  have ht2 : c :: l = '[' :: ("ATTACHMENT]".data ++ t) := ht
  injection ht2 with h1 _
  exact hc h1

/-- A pattern free of open-brackets that does not lead the input does
not lead the output of the bare scan. -/
theorem leads_not_replaceBareF :
    ∀ fuel p cs, (∀ x ∈ p, x ≠ '[') → ¬ leadsWith p cs →
      ¬ leadsWith p (replaceBareF fuel cs) := by
  intro fuel
  induction fuel with
  | zero => intro p cs _ h; exact h
  | succ f ih =>
      intro p cs hp hn
      cases cs with
      | nil => exact hn
      | cons c cs2 =>
          cases p with
          | nil => exact absurd ⟨c :: cs2, rfl⟩ hn
          | cons a p2 =>
              cases hb : isPre BAREpat (c :: cs2) with
              | true =>
                  rw [show replaceBareF (f + 1) (c :: cs2) =
                      BARSUB ++ replaceBareF f ((c :: cs2).drop 12) from by
                    simp [replaceBareF, hb]]
                  intro hlw
                  obtain ⟨s2, hs2, _⟩ := leadsWith_head hlw
                  have hs3 : '[' :: ("Attachment]".data ++
                      replaceBareF f ((c :: cs2).drop 12)) = a :: s2 := hs2
                  injection hs3 with h1 _
                  exact hp a (List.mem_cons_self a p2) h1.symm
              | false =>
                  rw [show replaceBareF (f + 1) (c :: cs2) =
                      c :: replaceBareF f cs2 from by
                    simp [replaceBareF, hb]]
                  intro hlw
                  rcases leadsWith_cons_iff.mp hlw with ⟨hac, hlw2⟩
                  have hn2 : ¬ leadsWith p2 cs2 := fun hl2 =>
                    hn (leadsWith_cons_iff.mpr ⟨hac, hl2⟩)
                  exact ih p2 cs2
                    (fun x hx => hp x (List.mem_cons_of_mem a hx)) hn2 hlw2

/-- The bare scan keeps a run of characters at which no match can
start. -/
theorem replaceBareF_keep :
    ∀ u fuel v, (∀ x ∈ u, x ≠ '[') →
      replaceBareF (u.length + fuel) (u ++ v) =
        u ++ replaceBareF fuel v := by
  intro u
  induction u with
  | nil => intro fuel v _; simp
  | cons a u2 ih =>
      intro fuel v hu
      have hb : isPre BAREpat (a :: (u2 ++ v)) = false :=
        bare_isPre_false_of_head (hu a (List.mem_cons_self a u2))
      have hlen : (a :: u2).length + fuel = (u2.length + fuel) + 1 := by
        simp
        omega
      rw [hlen]
      rw [show replaceBareF ((u2.length + fuel) + 1) ((a :: u2) ++ v) =
          a :: replaceBareF (u2.length + fuel) (u2 ++ v) from by
        simp [replaceBareF, hb]]
      rw [ih fuel v (fun x hx => hu x (List.mem_cons_of_mem a hx))]
      rfl

/-- A string without close-brackets passes the bare scan unchanged. -/
theorem replaceBareF_no_rbracket :
    ∀ fuel v, ']' ∉ v → replaceBareF fuel v = v := by
  intro fuel
  induction fuel with
  | zero => intro v _; rfl
  | succ f ih =>
      intro v hv
      cases v with
      | nil => rfl
      | cons c cs =>
          cases hb : isPre BAREpat (c :: cs) with
          | true =>
              exfalso
              obtain ⟨t, ht⟩ := (isPre_iff _ _).mp hb
              apply hv
              rw [ht]
              exact List.mem_append_left t (by decide)
          | false =>
              rw [show replaceBareF (f + 1) (c :: cs) =
                  c :: replaceBareF f cs from by simp [replaceBareF, hb]]
              rw [ih cs (fun h => hv (List.mem_cons_of_mem c h))]

/-- An occurrence filling the whole string is the string. -/
theorem occ_eq_of_le_length {p s : List Char} (h : occurs p s)
    (hle : s.length ≤ p.length) : s = p := by
  obtain ⟨a, b, hab⟩ := h
  subst hab
  simp [List.length_append] at hle
  have ha : a.length = 0 := by omega
  have hb : b.length = 0 := by omega
  rw [List.eq_nil_of_length_eq_zero ha, List.eq_nil_of_length_eq_zero hb]
  simp

/-- No strict front part of the bare token contains a close-bracket. -/
theorem bare_take_no_rbracket : ∀ k, k < 12 → ']' ∉ BAREpat.take k := by
  decide

/-- The bare scan does not create placeholder tokens: a token-free
string stays token-free. -/
theorem replaceBareF_no_tok :
    ∀ fuel u, u.length ≤ fuel → ¬ hasTok u →
      ¬ hasTok (replaceBareF fuel u) := by
  intro fuel
  induction fuel with
  | zero =>
      intro u hl _
      have h0 : u = [] := List.eq_nil_of_length_eq_zero (Nat.le_zero.mp hl)
      subst h0
      exact hasTok_nil
  | succ f ih =>
      intro u hl hnt
      cases u with
      | nil => exact hasTok_nil
      | cons c cs =>
          cases hb : isPre BAREpat (c :: cs) with
          | true =>
              obtain ⟨t, ht⟩ := (isPre_iff _ _).mp hb
              have hdrop : (c :: cs).drop 12 = t := by
                rw [ht, show (12 : Nat) = BAREpat.length from
                  BAREpat_length.symm, List.drop_left]
              rw [show replaceBareF (f + 1) (c :: cs) =
                  BARSUB ++ replaceBareF f ((c :: cs).drop 12) from by
                simp [replaceBareF, hb], hdrop]
              intro h
              have htlen : t.length ≤ f := by
                have h2 := congrArg List.length ht
                simp [BAREpat_length] at h2
                simp at hl
                omega
              have hnt2 : ¬ hasTok t := fun h2 => hnt (ht ▸ hasTok_extend h2)
              have hBlast : BARSUB.getLast? = some ']' := by decide
              have hBocc : ¬ occurs PREpat BARSUB := by
                intro h2
                have h3 := occurs_length h2
                rw [PREpat_length] at h3
                have h4 : BARSUB.length = 12 := by decide
                omega
              exact ih t htlen hnt2 (block_absorb hBlast hBocc h)
          | false =>
              rw [show replaceBareF (f + 1) (c :: cs) =
                  c :: replaceBareF f cs from by simp [replaceBareF, hb]]
              intro h
              have hcl : cs.length ≤ f := by
                simp at hl
                omega
              have hntc : ¬ hasTok cs := fun h2 =>
                hnt (hasTok_extend (x := [c]) h2)
              rcases hasTok_cons_elim h with hts | h2
              · by_cases hlp : leadsWith PREpat (c :: cs)
                · obtain ⟨tail, htl⟩ := hlp
                  have hnts : ¬ TokStart (c :: cs) := fun h3 =>
                    hnt (hasTok_of_TokStart h3)
                  cases hdw : tail.dropWhile (fun x => decide (x ≠ ']')) with
                  | nil =>
                      have hnotail : ']' ∉ tail := by
                        intro hm
                        have h4 := dropWhile_nil_all hdw ']' hm
                        simp at h4
                      have htl2 : c :: cs =
                          '[' :: ("ATTACHMENT_ID:".data ++ tail) := htl
                      injection htl2 with _ hc2
                      have hnocs : ']' ∉ cs := by
                        rw [hc2]
                        intro hm
                        rcases List.mem_append.mp hm with hm2 | hm2
                        · exact absurd hm2 (by decide)
                        · exact hnotail hm2
                      rw [replaceBareF_no_rbracket f cs hnocs] at hts
                      exact hnts (htl ▸ hts)
                  | cons d r2 =>
                      have hd : d = ']' := by
                        have h4 := dropWhile_head_false hdw
                        simpa using h4
                      have htsplit := List.takeWhile_append_dropWhile
                        (p := fun x => decide (x ≠ ']')) (l := tail)
                      rw [hdw, hd] at htsplit
                      by_cases htw :
                          tail.takeWhile (fun x => decide (x ≠ ']')) = []
                      · have htail : tail = ']' :: r2 := by
                          rw [htw] at htsplit
                          simpa using htsplit.symm
                        have htl2 : c :: cs =
                            '[' :: ("ATTACHMENT_ID:".data ++ tail) := htl
                        injection htl2 with hc1 hc2
                        have hcs : cs =
                            ("ATTACHMENT_ID:".data ++ [']']) ++ r2 := by
                          rw [hc2, htail, List.append_assoc]
                          rfl
                        have hcsl := congrArg List.length hcs
                        simp at hcsl
                        have hf15 : f = 15 + (f - 15) := by omega
                        have hkeep := replaceBareF_keep
                          ("ATTACHMENT_ID:".data ++ [']']) (f - 15) r2
                          (by decide)
                        have hul : ("ATTACHMENT_ID:".data ++ [']'] :
                            List Char).length = 15 := by decide
                        rw [hul] at hkeep
                        have hout : replaceBareF f cs =
                            ("ATTACHMENT_ID:".data ++ [']']) ++
                              replaceBareF (f - 15) r2 := by
                          conv_lhs => rw [hcs, hf15]
                          exact hkeep
                        rw [hout] at hts
                        have heq : c :: ((("ATTACHMENT_ID:".data ++ [']'])) ++
                            replaceBareF (f - 15) r2) =
                            PREpat ++ ']' :: replaceBareF (f - 15) r2 := by
                          rw [hc1]
                          simp [PREpat, List.append_assoc]
                        rw [heq] at hts
                        exact not_TokStart_empty_id hts
                      · apply hnts
                        refine ⟨tail.takeWhile (fun x => decide (x ≠ ']')),
                          r2, ?_, htw, ?_⟩
                        · rw [htl, List.append_assoc]
                          exact congrArg (fun z => PREpat ++ z) htsplit.symm
                        · intro hm
                          have h4 := List.mem_takeWhile_imp hm
                          simp at h4
                · have hlw := TokStart_leadsWith hts
                  have hPp : PREpat = '[' :: "ATTACHMENT_ID:".data := rfl
                  rw [hPp] at hlw
                  rcases leadsWith_cons_iff.mp hlw with ⟨hcb, hlw2⟩
                  have hnl2 : ¬ leadsWith "ATTACHMENT_ID:".data cs := by
                    intro hl2
                    exact hlp (by
                      rw [hPp]
                      exact leadsWith_cons_iff.mpr ⟨hcb, hl2⟩)
                  exact leads_not_replaceBareF f "ATTACHMENT_ID:".data cs
                    (by decide) hnl2 hlw2
              · exact ih cs hcl hntc h2

/-- The bare scan leaves no bare token in its output. -/
theorem replaceBareF_no_bare :
    ∀ fuel u, u.length ≤ fuel → ¬ occurs BAREpat (replaceBareF fuel u) := by
  intro fuel
  induction fuel with
  | zero =>
      intro u hl
      have h0 : u = [] := List.eq_nil_of_length_eq_zero (Nat.le_zero.mp hl)
      subst h0
      intro h
      rw [show replaceBareF 0 ([] : List Char) = [] from rfl] at h
      have h2 := occurs_length h
      rw [BAREpat_length] at h2
      simp at h2
  | succ f ih =>
      intro u hl
      cases u with
      | nil =>
          intro h
          rw [show replaceBareF (f + 1) ([] : List Char) = [] from rfl] at h
          have h2 := occurs_length h
          rw [BAREpat_length] at h2
          simp at h2
      | cons c cs =>
          cases hb : isPre BAREpat (c :: cs) with
          | true =>
              obtain ⟨t, ht⟩ := (isPre_iff _ _).mp hb
              have hdrop : (c :: cs).drop 12 = t := by
                rw [ht, show (12 : Nat) = BAREpat.length from
                  BAREpat_length.symm, List.drop_left]
              rw [show replaceBareF (f + 1) (c :: cs) =
                  BARSUB ++ replaceBareF f ((c :: cs).drop 12) from by
                simp [replaceBareF, hb], hdrop]
              intro h
              have htlen : t.length ≤ f := by
                have h2 := congrArg List.length ht
                simp [BAREpat_length] at h2
                simp at hl
                omega
              rcases occurs_append_elim h with h1 | h1 |
                ⟨k, hk0, hkp, ⟨t2, ht2⟩, _⟩
              · have heq := occ_eq_of_le_length h1 (by decide)
                exact absurd heq (by decide)
              · exact ih t htlen h1
              · rw [BAREpat_length] at hkp
                have htk_ne : BAREpat.take k ≠ [] := by
                  intro h0
                  have h3 := congrArg List.length h0
                  rw [List.length_take, BAREpat_length] at h3
                  simp [Nat.min_eq_left (le_of_lt hkp)] at h3
                  omega
                have hlast : BARSUB.getLast? = (BAREpat.take k).getLast? := by
                  rw [ht2, List.getLast?_append_of_ne_nil t2 htk_ne]
                have hbl : BARSUB.getLast? = some ']' := by decide
                rw [hbl] at hlast
                obtain ⟨h9, h10⟩ := List.mem_getLast?_eq_getLast
                  (show ']' ∈ (BAREpat.take k).getLast? from hlast.symm)
                have hm1 : ']' ∈ BAREpat.take k := h10 ▸ List.getLast_mem h9
                exact bare_take_no_rbracket k hkp hm1
          | false =>
              rw [show replaceBareF (f + 1) (c :: cs) =
                  c :: replaceBareF f cs from by simp [replaceBareF, hb]]
              intro h
              have hcl : cs.length ≤ f := by
                simp at hl
                omega
              rcases occurs_cons_elim h with hlw | h2
              · have hnb : ¬ leadsWith BAREpat (c :: cs) := by
                  intro h3
                  have h4 := (isPre_iff BAREpat (c :: cs)).mpr h3
                  rw [h4] at hb
                  exact Bool.noConfusion hb
                have hBp : BAREpat = '[' :: "ATTACHMENT]".data := rfl
                rw [hBp] at hlw
                rcases leadsWith_cons_iff.mp hlw with ⟨hcb, hlw2⟩
                have hnl2 : ¬ leadsWith "ATTACHMENT]".data cs := by
                  intro hl2
                  exact hnb (by
                    rw [hBp]
                    exact leadsWith_cons_iff.mpr ⟨hcb, hl2⟩)
                exact leads_not_replaceBareF f "ATTACHMENT]".data cs
                  (by decide) hnl2 hlw2
              · exact ih cs hcl h2

/-- Totality of the resolver: under the filename proviso the enriched
text contains no id placeholder token and no bare token. -/
theorem enrichL_clean (att : List Char → Option JAttachment)
    (hatt : ∀ id a, att id = some a →
      ¬ occurs PREpat (a.filename.getD "file").data) (l : List Char) :
    ¬ hasTok (enrichL att l) ∧ ¬ occurs BAREpat (enrichL att l) := by
  unfold enrichL
  by_cases hl : l = []
  · rw [if_pos hl]
    refine ⟨hasTok_nil, ?_⟩
    intro h
    have h2 := occurs_length h
    rw [BAREpat_length] at h2
    simp at h2
  · rw [if_neg hl]
    have h1 : ¬ hasTok (replaceIdsF att l.length l) :=
      replaceIdsF_no_tok att hatt l.length l le_rfl
    exact ⟨replaceBareF_no_tok (replaceIdsF att l.length l).length
        (replaceIdsF att l.length l) le_rfl h1,
      replaceBareF_no_bare (replaceIdsF att l.length l).length
        (replaceIdsF att l.length l) le_rfl⟩

/-- C4 counterexample: an attachment whose filename itself contains an
id placeholder token survives resolution, so the claim that no
placeholder token remains is false as stated. -/
theorem c4_counterexample :
    hasTok (enrichL
      (fun i => if i = ['1'] then
          some { id := some "1", filename := some "[ATTACHMENT_ID:9]",
                 mimeType := some "text/plain", size := none,
                 content := none }
        else none)
      "[ATTACHMENT_ID:1]".data) := by
  refine ⟨"[File: ".data, "[ATTACHMENT_ID:9]]".data, by decide,
    ⟨['9'], [']'], by decide, by decide, by decide⟩⟩

/-- C4 (amended): provided no attachment filename in the lookup
contains the placeholder opener, resolution is total: no id placeholder
token and no bare token remains in the enriched text; moreover each
well-formed id placeholder is substituted through the lookup (readable
label when the id is found, generic label otherwise) and each bare
token is substituted by the generic label. -/
theorem c4_resolution_total (att : List Char → Option JAttachment)
    (hatt : ∀ id a, att id = some a →
      ¬ occurs PREpat (a.filename.getD "file").data) :
    (∀ l, ¬ hasTok (enrichL att l) ∧ ¬ occurs BAREpat (enrichL att l)) ∧
    (∀ id rest fuel, id ≠ [] → ']' ∉ id →
      replaceIdsF att (fuel + 1) (PREpat ++ (id ++ ']' :: rest)) =
        substFor att id ++ replaceIdsF att fuel rest) ∧
    (∀ id a, att id = some a →
      substFor att id = placeholderLabelForAttachment a) ∧
    (∀ id, att id = none → substFor att id = BARSUB) ∧
    (∀ rest fuel, replaceBareF (fuel + 1) (BAREpat ++ rest) =
      BARSUB ++ replaceBareF fuel rest) := by
  have replaceIdsF_cons : ∀ fuel c cs,
      replaceIdsF att (fuel + 1) (c :: cs) =
        match tokAt (c :: cs) with
        | some (id, rest) => substFor att id ++ replaceIdsF att fuel rest
        | none => c :: replaceIdsF att fuel cs := fun _ _ _ => rfl
  have replaceBareF_cons : ∀ fuel (c : Char) cs,
      replaceBareF (fuel + 1) (c :: cs) =
        if isPre BAREpat (c :: cs) then
          BARSUB ++ replaceBareF fuel ((c :: cs).drop 12)
        else c :: replaceBareF fuel cs := fun _ _ _ => rfl
  refine ⟨fun l => enrichL_clean att hatt l, ?_, ?_, ?_, ?_⟩
  · intro id rest fuel hid hnb
    have h1 : tokAt ('[' :: ("ATTACHMENT_ID:".data ++ (id ++ ']' :: rest))) =
        some (id, rest) := tokAt_build id rest hid hnb
    rw [show (PREpat ++ (id ++ ']' :: rest) : List Char) =
        '[' :: ("ATTACHMENT_ID:".data ++ (id ++ ']' :: rest)) from rfl]
    rw [replaceIdsF_cons, h1]
  · intro id a ha
    simp [substFor, ha]
  · intro id ha
    simp [substFor, ha]
  · intro rest fuel
    have hb : isPre BAREpat (BAREpat ++ rest) = true :=
      (isPre_iff _ _).mpr ⟨rest, rfl⟩
    have hdrop : (BAREpat ++ rest).drop 12 = rest := by
      rw [show (12 : Nat) = BAREpat.length from BAREpat_length.symm,
        List.drop_left]
    rw [show (BAREpat ++ rest : List Char) =
        '[' :: ("ATTACHMENT]".data ++ rest) from rfl] at hb hdrop ⊢
    rw [replaceBareF_cons, if_pos hb, hdrop]

/-- C4 witness: a text with a resolvable id placeholder and a bare
token, against a lookup with an ordinary filename, is fully resolved. -/
theorem c4_resolution_total_witness :
    ¬ hasTok (enrichL
      (fun i => if i = "10001".data then
          some { id := some "10001", filename := some "a.png",
                 mimeType := some "image/png", size := none,
                 content := none }
        else none)
      "x[ATTACHMENT_ID:10001]y[ATTACHMENT]z".data) ∧
    ¬ occurs BAREpat (enrichL
      (fun i => if i = "10001".data then
          some { id := some "10001", filename := some "a.png",
                 mimeType := some "image/png", size := none,
                 content := none }
        else none)
      "x[ATTACHMENT_ID:10001]y[ATTACHMENT]z".data) := by
  refine (c4_resolution_total _ ?_).1
    "x[ATTACHMENT_ID:10001]y[ATTACHMENT]z".data
  intro id a ha
  by_cases hi : id = "10001".data
  · rw [if_pos hi] at ha
    injection ha with ha2
    intro hocc
    rw [← ha2] at hocc
    exact absurd (occurs_length hocc) (by decide)
  · rw [if_neg hi] at ha
    exact Option.noConfusion ha
